import Mathlib

/-!
# IntroToGraphs: BFS, DFS and two topological sorts over an adjacency list

A shallow embedding of `src/IntroToGraphs.cpp`.

* `vector<vector<int>> adj_list` is a `List (List Nat)`; `vector<bool> visited` is a
  `List Bool`; `vector<int> indegree` is a `List Int`.
* `queue<int>` is a `List Nat` whose head is the front (push appends at the back);
  `stack<int>` is a `List Nat` whose head is the top.
* Vertex numbers are `int` in the source; in a well-formed graph none is negative, and the
  embedding uses `Nat`.  The in-degree counters, which are decremented, are `Int`.
* Every `v[i]` of the traversal and sorting functions is a checked access: an index
  beyond the length takes the `Error.indexOutOfRange` branch.  The source does not check;
  the branch marks the runs in which it would index outside a vector, and the theorems
  show that on a well-formed graph there are none.
* The reading loops of `main` index with the unchecked `operator[]` too, and their input
  is not validated.  Outside the bounds the source raises no error: its behaviour is
  undefined and it may run on.  The embedding records this as the separate outcome
  `Error.undefinedBehaviour` and follows the run no further.
* `while` loops and recursion are driven by a fuel counter; running out of it is the
  separate outcome `Error.outOfFuel`.  The theorems show that a fuel of `V`, the number of
  vertices, is always enough on a well-formed graph.
* The pairs read from `cin` are a `List (Int × Int)` of 1-based identifiers.
* Arguments passed by reference and mutated (`visited`, `topo_stack`) and the text
  printed by `DFSrec` are returned as part of the result.
-/

namespace IntroToGraphs

/-- Ways in which a run of the embedded code can end without a result:
`indexOutOfRange` for a checked index outside its container, `outOfFuel` for a loop or a
recursion that used up its fuel, and `undefinedBehaviour` for an unchecked `operator[]` of
`main` outside its container, where the source raises no error and its behaviour is
undefined. -/
inductive Error where
  | indexOutOfRange
  | outOfFuel
  | undefinedBehaviour
  deriving DecidableEq, Repr

/-- The adjacency list `vector<vector<int>>`: entry `i` lists the neighbours of `i`. -/
abbrev AdjList := List (List Nat)

/-- The adjacency matrix `vector<vector<bool>>`. -/
abbrev AdjMatrix := List (List Bool)

/-! ## Reading the graph (lines 21-56 of `main`) -/

/-- The `int` value `i` used with the unchecked `operator[]` on a container of length `n`.
Inside the bounds it is the position `i`.  For a negative value and for a value beyond the
length the source has no test and no error: the access is undefined behaviour, recorded as
`Error.undefinedBehaviour`. -/
def uncheckedIndex (i : Int) (n : Nat) : Except Error Nat :=
  if 0 ≤ i ∧ i < n then .ok i.toNat else .error .undefinedBehaviour

/-- The assignment `adj_matrix[i][j] = 1` (lines 41 and 42), both indices unchecked. -/
def setCell (adj_matrix : AdjMatrix) (i j : Int) : Except Error AdjMatrix :=
  match uncheckedIndex i adj_matrix.length with
  | .error e => .error e
  | .ok r =>
    match adj_matrix[r]? with
    | none => .error .undefinedBehaviour
    | some row =>
      match uncheckedIndex j row.length with
      | .error e => .error e
      | .ok c => .ok (adj_matrix.set r (row.set c true))

/-- The loop of lines 34-44 over the pairs `source dest` read from the input. -/
def readMatrix : List (Int × Int) → AdjMatrix → Except Error AdjMatrix
  | [], adj_matrix => .ok adj_matrix
  | (source, dest) :: rest, adj_matrix =>
    match setCell adj_matrix (source - 1) (dest - 1) with
    | .error e => .error e
    | .ok adj_matrix1 =>
      match setCell adj_matrix1 (dest - 1) (source - 1) with
      | .error e => .error e
      | .ok adj_matrix2 => readMatrix rest adj_matrix2

/-- The statement `adj_list[i].push_back(x)` (lines 54 and 55), the index unchecked.  The
pushed `int` is kept as a `Nat`: on line 54 a negative `dest` is pushed as it stands by the
source, and line 55 then indexes with it, outside the vector, so no result of `readList`
holds a truncated value. -/
def pushBack (adj_list : AdjList) (i x : Int) : Except Error AdjList :=
  match uncheckedIndex i adj_list.length with
  | .error e => .error e
  | .ok r =>
    match adj_list[r]? with
    | none => .error .undefinedBehaviour
    | some row => .ok (adj_list.set r (row ++ [x.toNat]))

/-- The loop of lines 47-56 over the pairs `source dest` read from the input. -/
def readList : List (Int × Int) → AdjList → Except Error AdjList
  | [], adj_list => .ok adj_list
  | (source, dest) :: rest, adj_list =>
    match pushBack adj_list (source - 1) (dest - 1) with
    | .error e => .error e
    | .ok adj_list1 =>
      match pushBack adj_list1 (dest - 1) (source - 1) with
      | .error e => .error e
      | .ok adj_list2 => readList rest adj_list2

/-- Lines 21-56 of `main`: the matrix is built from the first batch of pairs and the list
from the second batch.  The source fixes `V = 10` and reads 5 pairs per batch; here both
are arguments.  No pair is validated: the result is `.ok` when no access leaves its
vector and `Error.undefinedBehaviour` otherwise, never an index error. -/
def readGraph (V : Nat) (matrixPairs listPairs : List (Int × Int)) :
    Except Error (AdjMatrix × AdjList) :=
  match readMatrix matrixPairs (List.replicate V (List.replicate V false)) with
  | .error e => .error e
  | .ok adj_matrix =>
    match readList listPairs (List.replicate V []) with
    | .error e => .error e
    | .ok adj_list => .ok (adj_matrix, adj_list)

/-! ## BFS (lines 75-101) -/

/-- The range-for of `BFS` (lines 91-96): every unvisited neighbour is pushed on the
queue and marked. -/
def BFS_neighbours (visited : List Bool) (q : List Nat) :
    List Nat → Except Error (List Bool × List Nat)
  | [] => .ok (visited, q)
  | x :: xs =>
    match visited[x]? with
    | none => .error .indexOutOfRange
    | some true => BFS_neighbours visited q xs
    | some false => BFS_neighbours (visited.set x true) (q ++ [x]) xs

/-- The `while(!q.empty())` loop of `BFS` (lines 85-98). -/
def BFS_while (adj_list : AdjList) :
    Nat → List Bool → List Nat → List Nat → Except Error (List Nat × List Bool)
  | _, visited, [], res => .ok (res, visited)
  | 0, _, _ :: _, _ => .error .outOfFuel
  | fuel + 1, visited, curr :: q, res =>
    match adj_list[curr]? with
    | none => .error .indexOutOfRange
    | some nbrs =>
      match BFS_neighbours visited q nbrs with
      | .error e => .error e
      | .ok (visited', q') => BFS_while adj_list fuel visited' q' (res ++ [curr])

set_option linter.unusedVariables false in
/-- The function `BFS(adj_list, visited, V, S)`: returns `res` and the mutated `visited`.
The parameter `V` is not used by the source body either. -/
def BFS (fuel : Nat) (adj_list : AdjList) (visited : List Bool) (V : Nat) (S : Nat) :
    Except Error (List Nat × List Bool) :=
  if S < visited.length then
    BFS_while adj_list fuel (visited.set S true) [S] []
  else .error .indexOutOfRange

/-- The sweep of `main` (lines 64-66): `BFS` is called for every `i` of the given index
list on the shared `visited`; the sequences returned by the calls are collected. -/
def BFS_sweep (fuel : Nat) (adj_list : AdjList) (V : Nat) :
    List Nat → List Bool → List (List Nat) → Except Error (List (List Nat) × List Bool)
  | [], visited, answers => .ok (answers, visited)
  | i :: is, visited, answers =>
    match BFS fuel adj_list visited V i with
    | .error e => .error e
    | .ok (ans, visited') => BFS_sweep fuel adj_list V is visited' (answers ++ [ans])

/-! ## DFS (lines 104-131) -/

/-- The loop shape shared by `DFS` (lines 111-115), `DFSrec` (lines 126-130),
`DTopologicalSort` (lines 141-145) and `TopologicalSortDFS` (lines 160-164): for every
`x` of the list in order, `if(!visited[x]) call(visited, out, x)`. -/
def forUnvisited (call : List Bool → List Nat → Nat → Except Error (List Bool × List Nat)) :
    List Bool → List Nat → List Nat → Except Error (List Bool × List Nat)
  | visited, out, [] => .ok (visited, out)
  | visited, out, x :: xs =>
    match visited[x]? with
    | none => .error .indexOutOfRange
    | some true => forUnvisited call visited out xs
    | some false =>
      match call visited out x with
      | .error e => .error e
      | .ok (visited', out') => forUnvisited call visited' out' xs

/-- The function `DFSrec(adj_list, visited, s)` (lines 118-131); `out` is the text printed
so far, and the mutated `visited` is returned with it. -/
def DFSrec (adj_list : AdjList) :
    Nat → List Bool → List Nat → Nat → Except Error (List Bool × List Nat)
  | 0, _, _, _ => .error .outOfFuel
  | fuel + 1, visited, out, s =>
    if s < visited.length then
      match adj_list[s]? with
      | none => .error .indexOutOfRange
      | some nbrs =>
        forUnvisited (DFSrec adj_list fuel) (visited.set s true) (out ++ [s]) nbrs
    else .error .indexOutOfRange

/-- The function `DFS(adj_list)`: the full sweep; returns the printed sequence. -/
def DFS (fuel : Nat) (adj_list : AdjList) : Except Error (List Nat) :=
  match forUnvisited (DFSrec adj_list fuel) (List.replicate adj_list.length false) []
      (List.range adj_list.length) with
  | .error e => .error e
  | .ok (_, out) => .ok out

/-! ## Topological sort, DFS based (lines 135-167) -/

/-- The function `TopologicalSortDFS(adj_list, topo_stack, visited, i)` (lines 156-167);
the head of `topo_stack` is the top of the stack.  The arguments `visited` and
`topo_stack` come in the order of the shared loop `forUnvisited`. -/
def TopologicalSortDFS (adj_list : AdjList) :
    Nat → List Bool → List Nat → Nat → Except Error (List Bool × List Nat)
  | 0, _, _, _ => .error .outOfFuel
  | fuel + 1, visited, topo_stack, i =>
    if i < visited.length then
      match adj_list[i]? with
      | none => .error .indexOutOfRange
      | some nbrs =>
        match forUnvisited (TopologicalSortDFS adj_list fuel) (visited.set i true)
            topo_stack nbrs with
        | .error e => .error e
        | .ok (visited', topo_stack') => .ok (visited', i :: topo_stack')
    else .error .indexOutOfRange

/-- The loop of lines 149-152: pop the stack into `ans` until it is empty. -/
def popAll : List Nat → List Nat → List Nat
  | [], ans => ans
  | top :: rest, ans => popAll rest (ans ++ [top])

/-- The function `DTopologicalSort(adj_list)` (lines 135-155). -/
def DTopologicalSort (fuel : Nat) (adj_list : AdjList) : Except Error (List Nat) :=
  match forUnvisited (TopologicalSortDFS adj_list fuel)
      (List.replicate adj_list.length false) [] (List.range adj_list.length) with
  | .error e => .error e
  | .ok (_, topo_stack) => .ok (popAll topo_stack [])

/-! ## Topological sort, Kahn (lines 169-208) -/

/-- The inner loop of lines 175-177: `indegree[x]++` for every `x` of one row. -/
def countRow (indegree : List Int) : List Nat → Except Error (List Int)
  | [] => .ok indegree
  | x :: xs =>
    match indegree[x]? with
    | none => .error .indexOutOfRange
    | some d => countRow (indegree.set x (d + 1)) xs

/-- The outer loop of lines 174-178 over the row indices. -/
def countIndegree (adj_list : AdjList) : List Nat → List Int → Except Error (List Int)
  | [], indegree => .ok indegree
  | i :: is, indegree =>
    match adj_list[i]? with
    | none => .error .indexOutOfRange
    | some nbrs =>
      match countRow indegree nbrs with
      | .error e => .error e
      | .ok indegree' => countIndegree adj_list is indegree'

/-- The loop of lines 182-186: push every index whose in-degree is 0. -/
def seedQueue (indegree : List Int) : List Nat → List Nat → Except Error (List Nat)
  | [], q => .ok q
  | i :: is, q =>
    match indegree[i]? with
    | none => .error .indexOutOfRange
    | some d => if d = 0 then seedQueue indegree is (q ++ [i]) else seedQueue indegree is q

/-- The range-for of lines 197-204: decrement the in-degree of every child and push the
children whose in-degree reaches 0. -/
def relax (indegree : List Int) (q : List Nat) :
    List Nat → Except Error (List Int × List Nat)
  | [] => .ok (indegree, q)
  | x :: xs =>
    match indegree[x]? with
    | none => .error .indexOutOfRange
    | some d =>
      if d - 1 = 0 then relax (indegree.set x (d - 1)) (q ++ [x]) xs
      else relax (indegree.set x (d - 1)) q xs

/-- The `while(!q.empty())` loop of lines 190-205. -/
def kahnWhile (adj_list : AdjList) :
    Nat → List Int → List Nat → List Nat → Except Error (List Nat)
  | _, _, [], ans => .ok ans
  | 0, _, _ :: _, _ => .error .outOfFuel
  | fuel + 1, indegree, curr :: q, ans =>
    match adj_list[curr]? with
    | none => .error .indexOutOfRange
    | some nbrs =>
      match relax indegree q nbrs with
      | .error e => .error e
      | .ok (indegree', q') => kahnWhile adj_list fuel indegree' q' (ans ++ [curr])

/-- The function `BFSTopologicalSort(adj_list)` (lines 169-208). -/
def BFSTopologicalSort (fuel : Nat) (adj_list : AdjList) : Except Error (List Nat) :=
  match countIndegree adj_list (List.range adj_list.length)
      (List.replicate adj_list.length 0) with
  | .error e => .error e
  | .ok indegree =>
    match seedQueue indegree (List.range adj_list.length) [] with
    | .error e => .error e
    | .ok q => kahnWhile adj_list fuel indegree q []

/-! ## Specification vocabulary -/

/-- Well-formed graph: every neighbour is an index of the adjacency list. -/
def WellFormed (adj_list : AdjList) : Prop :=
  ∀ nbrs ∈ adj_list, ∀ x ∈ nbrs, x < adj_list.length

instance (adj_list : AdjList) : Decidable (WellFormed adj_list) := by
  unfold WellFormed; infer_instance

/-- There is a directed edge `u → v`: `v` occurs in `adj_list[u]`. -/
def Edge (adj_list : AdjList) (u v : Nat) : Prop :=
  ∃ nbrs, adj_list[u]? = some nbrs ∧ v ∈ nbrs

/-- Vertex `v` is reachable from `s` along directed edges (`s` itself included). -/
def Reachable (adj_list : AdjList) (s v : Nat) : Prop :=
  Relation.ReflTransGen (Edge adj_list) s v

/-- There is a walk of exactly `n` edges from `s` to `v`. -/
def Walk (adj_list : AdjList) : Nat → Nat → Nat → Prop
  | 0, s, v => s = v
  | n + 1, s, v => ∃ w, Walk adj_list n s w ∧ Edge adj_list w v

/-- Vertex `v` is at shortest-path distance `d` from `s`. -/
def IsDist (adj_list : AdjList) (s v d : Nat) : Prop :=
  Walk adj_list d s v ∧ ∀ k, k < d → ¬ Walk adj_list k s v

/-- Vertex `v` lies on a directed cycle (a self-loop counts). -/
def OnCycle (adj_list : AdjList) (v : Nat) : Prop :=
  Relation.TransGen (Edge adj_list) v v

/-- The graph has no directed cycle. -/
def Acyclic (adj_list : AdjList) : Prop :=
  ∀ v, ¬ OnCycle adj_list v

/-- Element `a` occurs in `l` at a position strictly before a position of `b`. -/
def Before (l : List Nat) (a b : Nat) : Prop :=
  ∃ i j : Nat, i < j ∧ l[i]? = some a ∧ l[j]? = some b

/-! ## Loop invariants used by the proofs -/

/-- Invariant of the `while` loop of `BFS`, relative to the marks `visited0` at loop entry
(the source `S` already marked): the vertices popped so far are `res`, the queue is `q`. -/
def BFS_inv (adj_list : AdjList) (visited0 : List Bool) (S : Nat)
    (visited : List Bool) (q res : List Nat) : Prop :=
  (res ++ q).Nodup ∧
  (∃ t, res ++ q = S :: t) ∧
  (∀ y, visited[y]? = some true ↔ visited0[y]? = some true ∨ y ∈ res ++ q) ∧
  (∀ y ∈ res ++ q, y ≠ S → visited0[y]? = some false) ∧
  (∀ u ∈ res, ∀ x, Edge adj_list u x → visited[x]? = some true) ∧
  (∀ y ∈ res ++ q, Relation.ReflTransGen
      (fun u w => Edge adj_list u w ∧ visited0[w]? = some false) S y)

/-- Distance invariant of the `while` loop of `BFS` started from fresh marks: the queue
holds vertices at distance `d` followed by vertices at distance `d + 1`, everything nearer
than `d` has been popped, and the popped vertices are in non-decreasing distance. -/
def BFS_dist_inv (adj_list : AdjList) (S : Nat)
    (visited : List Bool) (q res : List Nat) : Prop :=
  (∀ y, visited[y]? = some true ↔ y ∈ res ++ q) ∧
  (∀ u ∈ res, ∀ x, Edge adj_list u x → visited[x]? = some true) ∧
  List.Pairwise (fun a b => ∀ da db, IsDist adj_list S a da → IsDist adj_list S b db → da ≤ db)
    res ∧
  ∃ d q1 q2, q = q1 ++ q2 ∧
    (∀ y ∈ q1, IsDist adj_list S y d) ∧ (∀ y ∈ q2, IsDist adj_list S y (d + 1)) ∧
    (∀ y ∈ res, ∃ k, k ≤ d ∧ IsDist adj_list S y k) ∧
    (∀ y k, k < d → Walk adj_list k S y → y ∈ res) ∧
    (∀ y, Walk adj_list d S y → y ∈ res ++ q1)

/-- The marks `visited'` are the marks `visited` with exactly the (distinct, previously
unmarked) vertices of `added` additionally set. -/
def Grow (visited visited' : List Bool) (added : List Nat) : Prop :=
  visited'.length = visited.length ∧ added.Nodup ∧
  (∀ y ∈ added, visited[y]? = some false) ∧
  (∀ y, visited'[y]? = some true ↔ visited[y]? = some true ∨ y ∈ added) ∧
  visited'.count false ≤ visited.count false

/-- The stack `st` is closed under edges, and no edge leads from a vertex of the stack to
a vertex nearer the top. -/
def TopoClosed (adj_list : AdjList) (st : List Nat) : Prop :=
  (∀ u ∈ st, ∀ x, Edge adj_list u x → x ∈ st) ∧
  st.Pairwise (fun a b => ¬ Edge adj_list b a)

/-- The number of edges into `v`, with multiplicity, that leave a vertex outside `done`. -/
def remIn (adj_list : AdjList) (done : List Nat) (v : Nat) : Nat :=
  Finset.sum (Finset.range adj_list.length)
    (fun u => if u ∈ done then 0 else ((adj_list[u]?).getD []).count v)

/-- Invariant of the `while` loop of `BFSTopologicalSort`: `indegree[v]` counts the edges
into `v` from vertices not yet popped, `ans ++ q` has no duplicates, and it holds exactly
the vertices whose count is 0. -/
def KahnInv (adj_list : AdjList) (indegree : List Int) (q ans : List Nat) : Prop :=
  indegree.length = adj_list.length ∧
  (∀ v, v < adj_list.length → indegree[v]? = some (remIn adj_list ans v : Int)) ∧
  (ans ++ q).Nodup ∧
  (∀ x ∈ ans ++ q, x < adj_list.length) ∧
  (∀ v, v < adj_list.length → (v ∈ ans ++ q ↔ remIn adj_list ans v = 0))

/-- Vertex `v` is reachable from `s` by a path all of whose vertices after `s` are
unmarked in `visited`. -/
def ReachableUnvisited (adj_list : AdjList) (visited : List Bool) (s v : Nat) : Prop :=
  Relation.ReflTransGen (fun u w => Edge adj_list u w ∧ visited[w]? = some false) s v

/-- The in-degree of `v`: the number of occurrences of `v` in the adjacency lists. -/
def inDegree (adj_list : AdjList) (v : Nat) : Nat :=
  (adj_list.map (fun nbrs => nbrs.count v)).sum

/-- The queue with which the `while` loop of `BFSTopologicalSort` starts: the vertices of
in-degree 0 in increasing index order. -/
def seeds (adj_list : AdjList) : List Nat :=
  (List.range adj_list.length).filter (fun v => decide (inDegree adj_list v = 0))

/-- Undirected graph as `main` builds it: `j` occurs in `adj_list[i]` as often as `i`
occurs in `adj_list[j]`. -/
def SymmetricCounts (adj_list : AdjList) : Prop :=
  ∀ i, i < adj_list.length → ∀ j, j < adj_list.length →
    ((adj_list[i]?).getD []).count j = ((adj_list[j]?).getD []).count i

instance (adj_list : AdjList) : Decidable (SymmetricCounts adj_list) := by
  unfold SymmetricCounts; infer_instance

/-- The longest walk that ends at `v` has `d` edges (the level of `v`; 0 when nothing
leads into `v`). -/
def IsLevel (adj_list : AdjList) (v d : Nat) : Prop :=
  (∃ s, Walk adj_list d s v) ∧ ∀ k, d < k → ¬ ∃ s, Walk adj_list k s v

/-- Level invariant of the `while` loop of `BFSTopologicalSort`: the queue holds vertices
of level `d` followed by vertices of level `d + 1`, and the popped vertices are in
non-decreasing level, none above `d`. -/
def KahnLevelInv (adj_list : AdjList) (q ans : List Nat) : Prop :=
  List.Pairwise (fun a b => ∀ la lb, IsLevel adj_list a la → IsLevel adj_list b lb → la ≤ lb)
    ans ∧
  ∃ d q1 q2, q = q1 ++ q2 ∧
    (∀ y ∈ q1, IsLevel adj_list y d) ∧ (∀ y ∈ q2, IsLevel adj_list y (d + 1)) ∧
    (∀ y ∈ ans, ∃ k, k ≤ d ∧ IsLevel adj_list y k)

/-- Both identifiers of the input pair `p` are in `[1, V]`. -/
def InRange (V : Nat) (p : Int × Int) : Prop :=
  1 ≤ p.1 ∧ p.1 ≤ V ∧ 1 ≤ p.2 ∧ p.2 ≤ V

instance (V : Nat) (p : Int × Int) : Decidable (InRange V p) := by
  unfold InRange; infer_instance

/-- The cell `adj_matrix[i][j]` exists and is true. -/
def Cell (adj_matrix : AdjMatrix) (i j : Nat) : Prop :=
  ∃ row, adj_matrix[i]? = some row ∧ row[j]? = some true

/-- The matrix has `V` rows of `V` entries each. -/
def Square (V : Nat) (adj_matrix : AdjMatrix) : Prop :=
  adj_matrix.length = V ∧ ∀ row ∈ adj_matrix, row.length = V

/-! ## Arrays of marks -/

theorem marked_set_iff (visited : List Bool) (x y : Nat) :
    (visited.set x true)[y]? = some true ↔
      (y = x ∧ x < visited.length) ∨ visited[y]? = some true := by
  rw [List.getElem?_set]
  by_cases hxy : x = y
  · subst hxy
    by_cases hlt : x < visited.length
    · simp [hlt]
    · simp [hlt]
      intro h; exact absurd (List.getElem?_eq_some_iff.mp h).1 hlt
  · simp [hxy]
    intro h; exact absurd h.symm hxy

theorem unmarked_set_iff (visited : List Bool) (x y : Nat) :
    (visited.set x true)[y]? = some false ↔ y ≠ x ∧ visited[y]? = some false := by
  rw [List.getElem?_set]
  by_cases hxy : x = y
  · subst hxy
    by_cases hlt : x < visited.length <;> simp [hlt]
  · simp [hxy]
    intro _ h; exact hxy h.symm

theorem count_false_set (visited : List Bool) (x : Nat) (h : visited[x]? = some false) :
    (visited.set x true).count false + 1 = visited.count false := by
  induction visited generalizing x with
  | nil => simp at h
  | cons b bs ih =>
    cases x with
    | zero =>
      simp at h; subst h; simp
    | succ n =>
      simp at h
      have := ih n h
      cases b <;> simp [List.count_cons] <;> omega

theorem count_false_set_le (visited : List Bool) (x : Nat) :
    (visited.set x true).count false ≤ visited.count false := by
  induction visited generalizing x with
  | nil => simp
  | cons b bs ih =>
    cases x with
    | zero => cases b <;> simp [List.count_cons]
    | succ n =>
      have := ih n
      cases b <;> simp [List.count_cons] <;> omega

theorem count_false_set_lt (visited : List Bool) (s : Nat) (hs : s < visited.length) :
    (visited.set s true).count false < visited.length := by
  have h1 := List.count_false_add_count_true (visited.set s true)
  have h2 : 0 < (visited.set s true).count true := by
    rw [List.count_pos_iff]
    exact List.getElem?_mem ((marked_set_iff visited s s).mpr (Or.inl ⟨rfl, hs⟩))
  rw [List.length_set] at h1
  omega

theorem replicate_false_not_marked (V y : Nat) :
    ¬ (List.replicate V false)[y]? = some true := by
  rw [List.getElem?_replicate]
  split <;> simp

/-- An entry inside the array is either marked or unmarked. -/
theorem marked_or_unmarked (visited : List Bool) (x : Nat) (h : x < visited.length) :
    visited[x]? = some true ∨ visited[x]? = some false := by
  rw [List.getElem?_eq_getElem h]
  cases visited[x] <;> simp

theorem lt_of_getElem?_eq_some {α : Type} (l : List α) (x : Nat) (a : α)
    (h : l[x]? = some a) : x < l.length :=
  (List.getElem?_eq_some_iff.mp h).1

theorem BFS_neighbours_spec (xs : List Nat) :
    ∀ (visited : List Bool) (q : List Nat), (∀ x ∈ xs, x < visited.length) →
    ∃ new visited', BFS_neighbours visited q xs = .ok (visited', q ++ new) ∧
      visited'.length = visited.length ∧ new.Nodup ∧
      (∀ x, x ∈ new ↔ x ∈ xs ∧ visited[x]? = some false) ∧
      (∀ y, visited'[y]? = some true ↔ visited[y]? = some true ∨ y ∈ new) ∧
      visited'.count false + new.length = visited.count false := by
  induction xs with
  | nil =>
    intro visited q _
    exact ⟨[], visited, by simp [BFS_neighbours]⟩
  | cons x xs ih =>
    intro visited q hxs
    have hx : x < visited.length := hxs x (List.mem_cons_self _ _)
    have hxs' : ∀ y ∈ xs, y < visited.length := fun y hy => hxs y (List.mem_cons_of_mem _ hy)
    rcases marked_or_unmarked visited x hx with hm | hm
    · obtain ⟨new, visited', heq, hlen, hnd, hmem, hmark, hcnt⟩ := ih visited q hxs'
      refine ⟨new, visited', ?_, hlen, hnd, ?_, hmark, hcnt⟩
      · simp only [BFS_neighbours, hm]; exact heq
      · intro y
        rw [hmem y]
        constructor
        · rintro ⟨h1, h2⟩; exact ⟨List.mem_cons_of_mem _ h1, h2⟩
        · rintro ⟨h1, h2⟩
          rcases List.mem_cons.mp h1 with h | h
          · subst h; rw [hm] at h2; simp at h2
          · exact ⟨h, h2⟩
    · obtain ⟨new, visited', heq, hlen, hnd, hmem, hmark, hcnt⟩ :=
        ih (visited.set x true) (q ++ [x]) (by simpa using hxs')
      refine ⟨x :: new, visited', ?_, ?_, ?_, ?_, ?_, ?_⟩
      · simp only [BFS_neighbours, hm]; rw [heq]; simp
      · simpa using hlen
      · refine List.nodup_cons.mpr ⟨?_, hnd⟩
        intro h
        have := ((hmem x).mp h).2
        rw [unmarked_set_iff] at this
        exact this.1 rfl
      · intro y
        rw [List.mem_cons, hmem y, unmarked_set_iff]
        constructor
        · rintro (h | ⟨h1, h2, h3⟩)
          · subst h; exact ⟨List.mem_cons_self _ _, hm⟩
          · exact ⟨List.mem_cons_of_mem _ h1, h3⟩
        · rintro ⟨h1, h2⟩
          by_cases hyx : y = x
          · exact Or.inl hyx
          · rcases List.mem_cons.mp h1 with h | h
            · exact absurd h hyx
            · exact Or.inr ⟨h, hyx, h2⟩
      · intro y
        rw [hmark y, marked_set_iff, List.mem_cons]
        constructor
        · rintro ((⟨h, _⟩ | h) | h)
          · exact Or.inr (Or.inl h)
          · exact Or.inl h
          · exact Or.inr (Or.inr h)
        · rintro (h | h | h)
          · exact Or.inl (Or.inr h)
          · exact Or.inl (Or.inl ⟨h, hx⟩)
          · exact Or.inr h
      · have := count_false_set visited x hm
        simp only [List.length_cons]
        omega

/-- A Hoare-style rule for the `while` loop of `BFS`: an invariant that survives one
iteration holds when the loop ends, and the loop does end when the fuel covers the queue
length plus the number of unmarked vertices. -/
theorem BFS_while_rule (adj_list : AdjList) (hwf : WellFormed adj_list)
    (Inv : List Bool → List Nat → List Nat → Prop)
    (hstep : ∀ visited curr q res nbrs new visited',
      Inv visited (curr :: q) res → visited.length = adj_list.length →
      (∀ x ∈ curr :: q, x < adj_list.length) → adj_list[curr]? = some nbrs →
      visited'.length = visited.length → new.Nodup →
      (∀ x, x ∈ new ↔ x ∈ nbrs ∧ visited[x]? = some false) →
      (∀ y, visited'[y]? = some true ↔ visited[y]? = some true ∨ y ∈ new) →
      Inv visited' (q ++ new) (res ++ [curr])) :
    ∀ (fuel : Nat) (visited : List Bool) (q res : List Nat),
      visited.length = adj_list.length → (∀ x ∈ q, x < adj_list.length) →
      q.length + visited.count false ≤ fuel → Inv visited q res →
      ∃ res' visited', BFS_while adj_list fuel visited q res = .ok (res', visited') ∧
        visited'.length = adj_list.length ∧ Inv visited' [] res' := by
  intro fuel
  induction fuel with
  | zero =>
    intro visited q res hlen _ hfuel hinv
    cases q with
    | nil => exact ⟨res, visited, by simp [BFS_while], hlen, hinv⟩
    | cons c q => simp at hfuel
  | succ fuel ih =>
    intro visited q res hlen hq hfuel hinv
    cases q with
    | nil => exact ⟨res, visited, by simp [BFS_while], hlen, hinv⟩
    | cons curr q =>
      have hcurr : curr < adj_list.length := hq curr (List.mem_cons_self _ _)
      have hnb : adj_list[curr]? = some adj_list[curr] := List.getElem?_eq_getElem hcurr
      have hnbrs : ∀ x ∈ adj_list[curr], x < visited.length := by
        intro x hx
        rw [hlen]
        exact hwf _ (List.getElem_mem _) x hx
      obtain ⟨new, visited', heq, hlen', hnd, hmem, hmark, hcnt⟩ :=
        BFS_neighbours_spec adj_list[curr] visited q hnbrs
      have hinv' := hstep visited curr q res _ new visited' hinv hlen hq hnb hlen' hnd hmem hmark
      have hq' : ∀ x ∈ q ++ new, x < adj_list.length := by
        intro x hx
        rcases List.mem_append.mp hx with h | h
        · exact hq x (List.mem_cons_of_mem _ h)
        · rw [← hlen]; exact lt_of_getElem?_eq_some _ _ _ ((hmem x).mp h).2
      have hfuel' : (q ++ new).length + visited'.count false ≤ fuel := by
        simp only [List.length_append, List.length_cons] at hfuel ⊢
        omega
      obtain ⟨res', vis'', hrun, hl, hI⟩ :=
        ih visited' (q ++ new) (res ++ [curr]) (hlen'.trans hlen) hq' hfuel' hinv'
      refine ⟨res', vis'', ?_, hl, hI⟩
      simp only [BFS_while, hnb, heq]
      exact hrun

/-! ## BFS: the loop invariant -/

theorem edge_lt_left {adj_list : AdjList} {u v : Nat} (h : Edge adj_list u v) :
    u < adj_list.length := by
  obtain ⟨nbrs, h1, _⟩ := h
  exact lt_of_getElem?_eq_some _ _ _ h1

theorem edge_lt_right {adj_list : AdjList} (hwf : WellFormed adj_list) {u v : Nat}
    (h : Edge adj_list u v) : v < adj_list.length := by
  obtain ⟨nbrs, h1, h2⟩ := h
  exact hwf nbrs (List.getElem?_mem h1) v h2

/-- One iteration keeps the popped vertices closed under edges into marked vertices. -/
theorem closed_step (adj_list : AdjList) (hwf : WellFormed adj_list)
    (visited visited' : List Bool) (curr : Nat) (res nbrs new : List Nat)
    (hlen : visited.length = adj_list.length)
    (hcl : ∀ u ∈ res, ∀ x, Edge adj_list u x → visited[x]? = some true)
    (hnb : adj_list[curr]? = some nbrs)
    (hmem : ∀ x, x ∈ new ↔ x ∈ nbrs ∧ visited[x]? = some false)
    (hmark : ∀ y, visited'[y]? = some true ↔ visited[y]? = some true ∨ y ∈ new) :
    ∀ u ∈ res ++ [curr], ∀ x, Edge adj_list u x → visited'[x]? = some true := by
  intro u hu x hux
  rw [hmark x]
  rcases List.mem_append.mp hu with h | h
  · exact Or.inl (hcl u h x hux)
  · have huc : u = curr := by simpa using h
    subst huc
    obtain ⟨nb, h1, h2⟩ := hux
    rw [hnb] at h1
    cases h1
    have hxlt : x < visited.length := by
      rw [hlen]; exact hwf nbrs (List.getElem?_mem hnb) x h2
    rcases marked_or_unmarked visited x hxlt with hm | hm
    · exact Or.inl hm
    · exact Or.inr ((hmem x).mpr ⟨h2, hm⟩)

theorem BFS_inv_step (adj_list : AdjList) (hwf : WellFormed adj_list)
    (visited0 : List Bool) (S : Nat) (h0 : visited0.length = adj_list.length)
    (visited : List Bool) (curr : Nat) (q res nbrs new : List Nat) (visited' : List Bool)
    (hinv : BFS_inv adj_list visited0 S visited (curr :: q) res)
    (hlen : visited.length = adj_list.length)
    (hnb : adj_list[curr]? = some nbrs)
    (hnd : new.Nodup)
    (hmem : ∀ x, x ∈ new ↔ x ∈ nbrs ∧ visited[x]? = some false)
    (hmark : ∀ y, visited'[y]? = some true ↔ visited[y]? = some true ∨ y ∈ new) :
    BFS_inv adj_list visited0 S visited' (q ++ new) (res ++ [curr]) := by
  obtain ⟨i1, i2, i3, i4, i5, i6⟩ := hinv
  have hre : (res ++ [curr]) ++ (q ++ new) = (res ++ curr :: q) ++ new := by simp
  have hnew0 : ∀ x ∈ new, x ∉ res ++ curr :: q ∧ visited0[x]? = some false := by
    intro x hx
    have hu := ((hmem x).mp hx).2
    have hnot : ¬ (visited0[x]? = some true ∨ x ∈ res ++ curr :: q) := by
      intro h
      rw [← i3 x, hu] at h
      simp at h
    refine ⟨fun h => hnot (Or.inr h), ?_⟩
    have hx0 : x < visited0.length := by
      rw [h0, ← hlen]; exact lt_of_getElem?_eq_some _ _ _ hu
    rcases marked_or_unmarked visited0 x hx0 with h | h
    · exact absurd (Or.inl h) hnot
    · exact h
  unfold BFS_inv
  rw [hre]
  refine ⟨?_, ?_, ?_, ?_, ?_, ?_⟩
  · refine List.Nodup.append i1 hnd ?_
    intro x hx1 hx2
    exact (hnew0 x hx2).1 hx1
  · obtain ⟨t, ht⟩ := i2
    exact ⟨t ++ new, by rw [ht]; simp⟩
  · intro y
    rw [hmark y, i3 y]
    simp only [List.mem_append]
    tauto
  · intro y hy hyS
    rcases List.mem_append.mp hy with h | h
    · exact i4 y h hyS
    · exact (hnew0 y h).2
  · exact closed_step adj_list hwf visited visited' curr res nbrs new hlen i5 hnb hmem hmark
  · intro y hy
    rcases List.mem_append.mp hy with h | h
    · exact i6 y h
    · have hc := i6 curr (by simp)
      exact hc.tail ⟨⟨nbrs, hnb, ((hmem y).mp h).1⟩, (hnew0 y h).2⟩

/-- What a call of `BFS` does on a well-formed graph, for any initial marks. -/
theorem BFS_core (adj_list : AdjList) (hwf : WellFormed adj_list) (fuel V S : Nat)
    (visited : List Bool) (hlen : visited.length = adj_list.length)
    (hS : S < adj_list.length) (hfuel : adj_list.length ≤ fuel) :
    ∃ res visited', BFS fuel adj_list visited V S = .ok (res, visited') ∧
      visited'.length = adj_list.length ∧
      BFS_inv adj_list (visited.set S true) S visited' [] res := by
  have h0 : (visited.set S true).length = adj_list.length := by simpa using hlen
  have hcnt : (visited.set S true).count false < adj_list.length := by
    rw [← hlen]; exact count_false_set_lt visited S (by rw [hlen]; exact hS)
  have hinit : BFS_inv adj_list (visited.set S true) S (visited.set S true) [S] [] := by
    refine ⟨by simp, ⟨[], by simp⟩, ?_, ?_, ?_, ?_⟩
    · intro y
      constructor
      · exact fun h => Or.inl h
      · rintro (h | h)
        · exact h
        · have : y = S := by simpa using h
          subst this
          exact (marked_set_iff visited y y).mpr (Or.inl ⟨rfl, by rw [hlen]; exact hS⟩)
    · intro y hy hyS
      exact absurd (by simpa using hy) hyS
    · intro u hu; simp at hu
    · intro y hy
      have : y = S := by simpa using hy
      subst this
      exact Relation.ReflTransGen.refl
  obtain ⟨res, visited', hrun, hl, hI⟩ :=
    BFS_while_rule adj_list hwf (BFS_inv adj_list (visited.set S true) S)
      (fun vis curr q res nbrs new vis' hi hl _ hnb _ hnd hmem hmark =>
        BFS_inv_step adj_list hwf _ S h0 vis curr q res nbrs new vis' hi hl hnb hnd hmem hmark)
      fuel (visited.set S true) [S] [] h0 (by simpa using hS)
      (by simp only [List.length_singleton]; omega) hinit
  refine ⟨res, visited', ?_, hl, hI⟩
  unfold BFS
  rw [if_pos (by rw [hlen]; exact hS)]
  exact hrun

/-! ## BFS from fresh marks (C1, C2) -/

theorem marked_fresh_iff (V S y : Nat) :
    ((List.replicate V false).set S true)[y]? = some true ↔ y = S ∧ S < V := by
  rw [marked_set_iff]
  constructor
  · rintro (h | h)
    · simpa using h
    · exact absurd h (replicate_false_not_marked V y)
  · intro h
    exact Or.inl (by simpa using h)

/-- C1: on a well-formed graph, from a source `S < V` and an all-false `visited` of length
`V`, `BFS` returns a sequence that contains a vertex exactly when the vertex is reachable
from `S` along adjacency-list edges (`S` included), and that contains no vertex twice. -/
theorem BFS_visits_exactly_reachable (adj_list : AdjList) (fuel V S : Nat)
    (hwf : WellFormed adj_list) (hV : adj_list.length = V) (hS : S < V) (hfuel : V ≤ fuel) :
    ∃ res visited', BFS fuel adj_list (List.replicate V false) V S = .ok (res, visited') ∧
      (∀ v, v ∈ res ↔ Reachable adj_list S v) ∧ res.Nodup := by
  subst hV
  obtain ⟨res, visited', hrun, _, i1, i2, i3, _, i5, i6⟩ :=
    BFS_core adj_list hwf fuel adj_list.length S (List.replicate adj_list.length false)
      (by simp) hS hfuel
  simp only [List.append_nil] at i1 i2 i3 i6
  have hSres : S ∈ res := by
    obtain ⟨t, ht⟩ := i2
    rw [ht]; exact List.mem_cons_self _ _
  refine ⟨res, visited', hrun, ?_, i1⟩
  intro v
  constructor
  · intro hv
    exact Relation.ReflTransGen.mono (fun _ _ h => h.1) (i6 v hv)
  · intro hv
    induction hv with
    | refl => exact hSres
    | @tail u w _ huw ih =>
      rcases (i3 w).mp (i5 u ih w huw) with h | h
      · rw [marked_fresh_iff] at h
        rw [h.1]; exact hSres
      · exact h

theorem BFS_visits_exactly_reachable_witness :
    WellFormed [[1], [0, 2], [1, 3], [2]] ∧
    ∃ res visited', BFS 4 [[1], [0, 2], [1, 3], [2]] (List.replicate 4 false) 4 0
        = .ok (res, visited') ∧
      (∀ v, v ∈ res ↔ Reachable [[1], [0, 2], [1, 3], [2]] 0 v) ∧ res.Nodup :=
  ⟨by decide, BFS_visits_exactly_reachable [[1], [0, 2], [1, 3], [2]] 4 4 0
    (by decide) rfl (by decide) (by decide)⟩

theorem isDist_unique {adj_list : AdjList} {S v d1 d2 : Nat}
    (h1 : IsDist adj_list S v d1) (h2 : IsDist adj_list S v d2) : d1 = d2 := by
  rcases Nat.lt_trichotomy d1 d2 with h | h | h
  · exact absurd h1.1 (h2.2 d1 h)
  · exact h
  · exact absurd h2.1 (h1.2 d2 h)

theorem BFS_dist_inv_step (adj_list : AdjList) (hwf : WellFormed adj_list) (S : Nat)
    (visited : List Bool) (curr : Nat) (q res nbrs new : List Nat) (visited' : List Bool)
    (hinv : BFS_dist_inv adj_list S visited (curr :: q) res)
    (hlen : visited.length = adj_list.length)
    (hnb : adj_list[curr]? = some nbrs)
    (hmem : ∀ x, x ∈ new ↔ x ∈ nbrs ∧ visited[x]? = some false)
    (hmark : ∀ y, visited'[y]? = some true ↔ visited[y]? = some true ∨ y ∈ new) :
    BFS_dist_inv adj_list S visited' (q ++ new) (res ++ [curr]) := by
  obtain ⟨ia, icl, ipw, d0, p1, p2, hq, hp1, hp2, hc, hd, he⟩ := hinv
  -- bring the front of the queue into the first block
  have hnorm : ∃ d q1 q2, q = q1 ++ q2 ∧ IsDist adj_list S curr d ∧
      (∀ y ∈ q1, IsDist adj_list S y d) ∧ (∀ y ∈ q2, IsDist adj_list S y (d + 1)) ∧
      (∀ y ∈ res, ∃ k, k ≤ d ∧ IsDist adj_list S y k) ∧
      (∀ y k, k < d → Walk adj_list k S y → y ∈ res) ∧
      (∀ y, Walk adj_list d S y → y ∈ res ++ curr :: q1) := by
    cases p1 with
    | nil =>
      simp only [List.nil_append] at hq
      subst hq
      simp only [List.append_nil] at he
      refine ⟨d0 + 1, q, [], by simp, hp2 curr (List.mem_cons_self _ _),
        fun y hy => hp2 y (List.mem_cons_of_mem _ hy), by simp, ?_, ?_, ?_⟩
      · intro y hy
        obtain ⟨k, hk, hyk⟩ := hc y hy
        exact ⟨k, by omega, hyk⟩
      · intro y k hk hw
        rcases Nat.lt_succ_iff_lt_or_eq.mp hk with h | h
        · exact hd y k h hw
        · subst h; exact he y hw
      · intro y hw
        obtain ⟨w, hw1, hw2⟩ := hw
        exact (ia y).mp (icl w (he w hw1) y hw2)
    | cons c p1 =>
      simp only [List.cons_append, List.cons.injEq] at hq
      obtain ⟨hc1, hq⟩ := hq
      subst hc1
      exact ⟨d0, p1, p2, hq, hp1 curr (List.mem_cons_self _ _),
        fun y hy => hp1 y (List.mem_cons_of_mem _ hy), hp2, hc, hd, he⟩
  obtain ⟨d, q1, q2, hq', hcurr, h1, h2, hc', hd', he'⟩ := hnorm
  have hnew : ∀ x ∈ new, IsDist adj_list S x (d + 1) := by
    intro x hx
    obtain ⟨hxn, hxu⟩ := (hmem x).mp hx
    refine ⟨⟨curr, hcurr.1, nbrs, hnb, hxn⟩, ?_⟩
    intro k hk hw
    have hin : x ∈ res ++ curr :: q := by
      rcases Nat.lt_succ_iff_lt_or_eq.mp hk with h | h
      · exact List.mem_append_left _ (hd' x k h hw)
      · subst h
        have := he' x hw
        rw [hq']
        simp only [List.mem_append, List.mem_cons] at this ⊢
        tauto
    have := (ia x).mpr hin
    rw [hxu] at this
    simp at this
  refine ⟨?_, closed_step adj_list hwf visited visited' curr res nbrs new hlen icl hnb hmem hmark,
    ?_, d, q1, q2 ++ new, ?_, h1, ?_, ?_,
    fun y k hk hw => List.mem_append_left _ (hd' y k hk hw), ?_⟩
  · intro y
    rw [hmark y, ia y]
    simp only [List.mem_append, List.mem_cons, List.mem_singleton]
    tauto
  · rw [List.pairwise_append]
    refine ⟨ipw, by simp, ?_⟩
    intro a ha b hb da db hda hdb
    have hbc : b = curr := by simpa using hb
    subst hbc
    obtain ⟨k, hk, hak⟩ := hc' a ha
    rw [isDist_unique hda hak, isDist_unique hdb hcurr]
    exact hk
  · rw [hq']; simp
  · intro y hy
    rcases List.mem_append.mp hy with h | h
    · exact h2 y h
    · exact hnew y h
  · intro y hy
    rcases List.mem_append.mp hy with h | h
    · exact hc' y h
    · have hyc : y = curr := by simpa using h
      subst hyc
      exact ⟨d, le_refl _, hcurr⟩
  · intro y hw
    have := he' y hw
    simp only [List.mem_append, List.mem_cons, List.mem_singleton] at this ⊢
    tauto

theorem before_of_pairwise {R : Nat → Nat → Prop} {l : List Nat} (hp : l.Pairwise R)
    {a b : Nat} (ha : a ∈ l) (hb : b ∈ l) (hne : a ≠ b) (hnot : ¬ R b a) : Before l a b := by
  obtain ⟨i, hi, hia⟩ := List.getElem_of_mem ha
  obtain ⟨j, hj, hjb⟩ := List.getElem_of_mem hb
  rcases Nat.lt_trichotomy i j with h | h | h
  · exact ⟨i, j, h, by rw [List.getElem?_eq_getElem hi, hia],
      by rw [List.getElem?_eq_getElem hj, hjb]⟩
  · subst h; rw [hia] at hjb; exact absurd hjb hne
  · have := List.pairwise_iff_getElem.mp hp j i hj hi h
    rw [hia, hjb] at this
    exact absurd this hnot

/-- C2: on a well-formed graph, from a source `S < V` and an all-false `visited`, the
sequence returned by `BFS` is ordered by shortest-path distance from `S`: a vertex at
distance `da` appears before every vertex at a larger distance `db`. -/
theorem BFS_distance_order (adj_list : AdjList) (fuel V S : Nat)
    (hwf : WellFormed adj_list) (hV : adj_list.length = V) (hS : S < V) (hfuel : V ≤ fuel) :
    ∃ res visited', BFS fuel adj_list (List.replicate V false) V S = .ok (res, visited') ∧
      ∀ a b da db, IsDist adj_list S a da → IsDist adj_list S b db → da < db →
        Before res a b := by
  subst hV
  have h0 : ((List.replicate adj_list.length false).set S true).length = adj_list.length := by
    simp
  have hinit : BFS_dist_inv adj_list S ((List.replicate adj_list.length false).set S true)
      [S] [] := by
    refine ⟨?_, by simp, List.Pairwise.nil, 0, [S], [], by simp, ?_, by simp, by simp,
      by simp, ?_⟩
    · intro y
      rw [marked_fresh_iff]
      simp only [List.nil_append, List.mem_singleton]
      exact ⟨fun h => h.1, fun h => ⟨h, hS⟩⟩
    · intro y hy
      have : y = S := by simpa using hy
      subst this
      exact ⟨rfl, by simp⟩
    · intro y hw
      have : S = y := hw
      simp [this]
  obtain ⟨res, visited', hrun, _, ia, icl, ipw, d, q1, q2, hq, _, _, _, hd, he⟩ :=
    BFS_while_rule adj_list hwf (BFS_dist_inv adj_list S)
      (fun vis curr q res nbrs new vis' hi hl _ hnb _ _ hmem hmark =>
        BFS_dist_inv_step adj_list hwf S vis curr q res nbrs new vis' hi hl hnb hmem hmark)
      fuel ((List.replicate adj_list.length false).set S true) [S] [] h0 (by simpa using hS)
      (by
        have := count_false_set_lt (List.replicate adj_list.length false) S (by simpa using hS)
        simp only [List.length_singleton, List.length_replicate] at this ⊢
        omega) hinit
  have hq1 : q1 = [] := by
    cases q1 with
    | nil => rfl
    | cons c t => simp at hq
  subst hq1
  simp only [List.append_nil] at ia he
  have hSres : S ∈ res := by
    rcases Nat.eq_zero_or_pos d with h | h
    · subst h; exact he S rfl
    · exact hd S 0 h rfl
  have hall : ∀ n y, Walk adj_list n S y → y ∈ res := by
    intro n
    induction n with
    | zero => intro y hw; have : S = y := hw; rw [← this]; exact hSres
    | succ n ih =>
      intro y hw
      obtain ⟨w, hw1, hw2⟩ := hw
      exact (ia y).mp (icl w (ih w hw1) y hw2)
  refine ⟨res, visited', ?_, ?_⟩
  · unfold BFS
    rw [if_pos (by simpa using hS)]
    exact hrun
  · intro a b da db hda hdb hlt
    refine before_of_pairwise ipw (hall da a hda.1) (hall db b hdb.1) ?_ ?_
    · intro hab
      subst hab
      have := isDist_unique hda hdb
      omega
    · intro h
      have := h db da hdb hda
      omega

theorem BFS_distance_order_witness :
    WellFormed [[1], [0, 2], [1, 3], [2]] ∧
    ∃ res visited', BFS 4 [[1], [0, 2], [1, 3], [2]] (List.replicate 4 false) 4 0
        = .ok (res, visited') ∧
      ∀ a b da db, IsDist [[1], [0, 2], [1, 3], [2]] 0 a da →
        IsDist [[1], [0, 2], [1, 3], [2]] 0 b db → da < db → Before res a b :=
  ⟨by decide, BFS_distance_order [[1], [0, 2], [1, 3], [2]] 4 4 0
    (by decide) rfl (by decide) (by decide)⟩

/-! ## The guarded loop of the depth-first functions -/

theorem Grow.refl (visited : List Bool) : Grow visited visited [] :=
  ⟨rfl, List.nodup_nil, by simp, by simp, le_refl _⟩

theorem Grow.unmarked {visited visited' : List Bool} {added : List Nat}
    (h : Grow visited visited' added) {y : Nat} (hy : visited'[y]? = some false) :
    visited[y]? = some false := by
  obtain ⟨hlen, _, _, hiff, _⟩ := h
  have hlt : y < visited.length := by
    rw [← hlen]; exact lt_of_getElem?_eq_some _ _ _ hy
  rcases marked_or_unmarked visited y hlt with hm | hm
  · have := (hiff y).mpr (Or.inl hm)
    rw [hy] at this; simp at this
  · exact hm

theorem Grow.trans {v1 v2 v3 : List Bool} {l1 l2 : List Nat}
    (h12 : Grow v1 v2 l1) (h23 : Grow v2 v3 l2) : Grow v1 v3 (l2 ++ l1) := by
  obtain ⟨a1, a2, a3, a4, a5⟩ := h12
  obtain ⟨b1, b2, b3, b4, b5⟩ := h23
  refine ⟨b1.trans a1, ?_, ?_, ?_, b5.trans a5⟩
  · refine List.Nodup.append b2 a2 ?_
    intro x hx2 hx1
    have := (a4 x).mpr (Or.inr hx1)
    rw [b3 x hx2] at this
    simp at this
  · intro y hy
    rcases List.mem_append.mp hy with h | h
    · exact Grow.unmarked ⟨a1, a2, a3, a4, a5⟩ (b3 y h)
    · exact a3 y h
  · intro y
    rw [b4 y, a4 y, List.mem_append]
    tauto

theorem Grow.set {visited : List Bool} {x : Nat} (h : visited[x]? = some false) :
    Grow visited (visited.set x true) [x] := by
  refine ⟨by simp, by simp, by simpa using h, ?_, count_false_set_le visited x⟩
  intro y
  rw [marked_set_iff, List.mem_singleton]
  have hx := lt_of_getElem?_eq_some _ _ _ h
  tauto

/-- A Hoare-style rule for the guarded loop: `Inv` is indexed by the list of the
elements already handled. -/
theorem forUnvisited_rule
    (call : List Bool → List Nat → Nat → Except Error (List Bool × List Nat))
    (P : Nat → Prop) (Inv : List Nat → List Bool → List Nat → Prop)
    (hlt : ∀ pre visited out x, Inv pre visited out → P x → x < visited.length)
    (hskip : ∀ pre visited out x, Inv pre visited out → P x → visited[x]? = some true →
      Inv (pre ++ [x]) visited out)
    (hcall : ∀ pre visited out x, Inv pre visited out → P x → visited[x]? = some false →
      ∃ visited' out', call visited out x = .ok (visited', out') ∧
        Inv (pre ++ [x]) visited' out') :
    ∀ (xs pre : List Nat) (visited : List Bool) (out : List Nat),
      (∀ x ∈ xs, P x) → Inv pre visited out →
      ∃ visited' out', forUnvisited call visited out xs = .ok (visited', out') ∧
        Inv (pre ++ xs) visited' out' := by
  intro xs
  induction xs with
  | nil =>
    intro pre visited out _ hinv
    exact ⟨visited, out, by simp [forUnvisited], by simpa using hinv⟩
  | cons x xs ih =>
    intro pre visited out hP hinv
    have hPx : P x := hP x (List.mem_cons_self _ _)
    have hP' : ∀ y ∈ xs, P y := fun y hy => hP y (List.mem_cons_of_mem _ hy)
    have happ : pre ++ x :: xs = (pre ++ [x]) ++ xs := by simp
    rw [happ]
    rcases marked_or_unmarked visited x (hlt pre visited out x hinv hPx) with hm | hm
    · obtain ⟨v', o', hrun, hI⟩ := ih (pre ++ [x]) visited out hP' (hskip _ _ _ _ hinv hPx hm)
      exact ⟨v', o', by simp only [forUnvisited, hm]; exact hrun, hI⟩
    · obtain ⟨v1, o1, hc, hI1⟩ := hcall _ _ _ _ hinv hPx hm
      obtain ⟨v', o', hrun, hI⟩ := ih (pre ++ [x]) v1 o1 hP' hI1
      exact ⟨v', o', by simp only [forUnvisited, hm, hc]; exact hrun, hI⟩

/-! ## DFS -/

/-- What a call of `DFSrec` does on a well-formed graph, for any marks: it prints `s`
and then distinct vertices that were unmarked, marks exactly those, leaves every
neighbour of a printed vertex marked, and every printed vertex is reachable from `s`
through vertices that were unmarked. -/
theorem DFSrec_spec (adj_list : AdjList) (hwf : WellFormed adj_list) :
    ∀ (fuel : Nat) (visited : List Bool) (out : List Nat) (s : Nat),
      visited.length = adj_list.length → s < adj_list.length →
      (visited.set s true).count false < fuel →
      ∃ visited' new, DFSrec adj_list fuel visited out s = .ok (visited', out ++ s :: new) ∧
        Grow (visited.set s true) visited' new ∧
        (∀ u ∈ s :: new, ∀ x, Edge adj_list u x → visited'[x]? = some true) ∧
        (∀ y ∈ new, Relation.ReflTransGen
          (fun u w => Edge adj_list u w ∧ visited[w]? = some false) s y) := by
  intro fuel
  induction fuel with
  | zero => intro visited out s _ _ h; omega
  | succ fuel ih =>
    intro visited out s hlen hs hfuel
    have hs' : s < visited.length := by rw [hlen]; exact hs
    have hnb : adj_list[s]? = some adj_list[s] := List.getElem?_eq_getElem hs
    have hrule := forUnvisited_rule (DFSrec adj_list fuel)
      (fun x => x ∈ adj_list[s])
      (fun pre v o => ∃ new, o = out ++ s :: new ∧ Grow (visited.set s true) v new ∧
        (∀ x ∈ pre, v[x]? = some true) ∧
        (∀ u ∈ new, ∀ x, Edge adj_list u x → v[x]? = some true) ∧
        (∀ y ∈ new, Relation.ReflTransGen
          (fun u w => Edge adj_list u w ∧ visited[w]? = some false) s y))
      ?_ ?_ ?_ adj_list[s] [] (visited.set s true) (out ++ [s]) (fun x hx => hx)
      ⟨[], by simp, Grow.refl _, by simp, by simp, by simp⟩
    · obtain ⟨visited', out', hrun, new, hout, hg, hpre, hcl, hreach⟩ := hrule
      subst hout
      refine ⟨visited', new, ?_, hg, ?_, hreach⟩
      · simp only [DFSrec, if_pos hs', hnb]
        exact hrun
      · intro u hu x hux
        rcases List.mem_cons.mp hu with h | h
        · subst h
          obtain ⟨nb, h1, h2⟩ := hux
          rw [hnb] at h1; cases h1
          exact hpre x (by simpa using h2)
        · exact hcl u h x hux
    · -- bound
      rintro pre v o x ⟨new, _, hg, _⟩ hx
      rw [hg.1, List.length_set, hlen]
      exact hwf _ (List.getElem_mem _) x hx
    · -- skip
      rintro pre v o x ⟨new, ho, hg, hpre, hcl, hreach⟩ _ hm
      refine ⟨new, ho, hg, ?_, hcl, hreach⟩
      intro y hy
      rcases List.mem_append.mp hy with h | h
      · exact hpre y h
      · have : y = x := by simpa using h
        subst this; exact hm
    · -- call
      rintro pre v o x ⟨new, ho, hg, hpre, hcl, hreach⟩ hx hm
      have hvlen : v.length = adj_list.length := by rw [hg.1, List.length_set, hlen]
      have hxlt : x < adj_list.length := hwf _ (List.getElem_mem _) x hx
      have hcnt : (v.set x true).count false < fuel := by
        have h1 := count_false_set v x hm
        have h2 := hg.2.2.2.2
        omega
      obtain ⟨v', newx, hrun, hgx, hclx, hreachx⟩ := ih v o x hvlen hxlt hcnt
      have hg1 : Grow (visited.set s true) v' (newx ++ ([x] ++ new)) :=
        Grow.trans (Grow.trans hg (Grow.set hm)) hgx
      have hxu : visited[x]? = some false :=
        ((unmarked_set_iff visited s x).mp (Grow.unmarked hg hm)).2
      refine ⟨v', o ++ x :: newx, hrun, new ++ x :: newx, by rw [ho]; simp, ?_, ?_, ?_, ?_⟩
      · obtain ⟨g1, g2, g3, g4, g5⟩ := hg1
        refine ⟨g1, ?_, ?_, ?_, g5⟩
        · have hp : (new ++ x :: newx).Perm (newx ++ ([x] ++ new)) :=
            List.perm_append_comm.trans List.perm_middle.symm
          exact hp.nodup_iff.mpr g2
        · intro y hy
          apply g3 y
          simp only [List.mem_append, List.mem_cons, List.mem_singleton] at hy ⊢
          tauto
        · intro y
          rw [g4 y]
          simp only [List.mem_append, List.mem_cons, List.mem_singleton]
          tauto
      · intro y hy
        have hmono : ∀ z : Nat, v[z]? = some true → v'[z]? = some true := by
          intro z hz
          exact (hgx.2.2.2.1 z).mpr (Or.inl ((marked_set_iff v x z).mpr (Or.inr hz)))
        rcases List.mem_append.mp hy with h | h
        · exact hmono y (hpre y h)
        · have : y = x := by simpa using h
          subst this
          exact (hgx.2.2.2.1 y).mpr
            (Or.inl ((marked_set_iff v y y).mpr (Or.inl ⟨rfl, by rw [hvlen]; exact hxlt⟩)))
      · intro u hu z huz
        rcases List.mem_append.mp hu with h | h
        · exact (hgx.2.2.2.1 z).mpr
            (Or.inl ((marked_set_iff v x z).mpr (Or.inr (hcl u h z huz))))
        · exact hclx u h z huz
      · have hsx : Relation.ReflTransGen
            (fun u w => Edge adj_list u w ∧ visited[w]? = some false) s x :=
          Relation.ReflTransGen.single ⟨⟨_, hnb, hx⟩, hxu⟩
        intro y hy
        rcases List.mem_append.mp hy with h | h
        · exact hreach y h
        · rcases List.mem_cons.mp h with h | h
          · subst h; exact hsx
          · refine hsx.trans (Relation.ReflTransGen.mono ?_ (hreachx y h))
            intro a b hab
            exact ⟨hab.1, ((unmarked_set_iff visited s b).mp (Grow.unmarked hg hab.2)).2⟩

theorem perm_range_of_nodup {l : List Nat} {V : Nat} (hnd : l.Nodup)
    (hmem : ∀ x, x ∈ l ↔ x < V) : l.Perm (List.range V) :=
  (List.perm_ext_iff_of_nodup hnd (List.nodup_range V)).mpr
    (fun x => by rw [hmem x, List.mem_range])

/-- The sweep of `DFS` on a well-formed graph prints distinct vertices, and every vertex
is among them. -/
theorem DFS_sweep_core (adj_list : AdjList) (fuel : Nat)
    (hwf : WellFormed adj_list) (hfuel : adj_list.length ≤ fuel) :
    ∃ out, DFS fuel adj_list = .ok out ∧ out.Nodup ∧ ∀ x, x ∈ out ↔ x < adj_list.length := by
  have hrule := forUnvisited_rule (DFSrec adj_list fuel)
    (fun x => x < adj_list.length)
    (fun pre v o => v.length = adj_list.length ∧ o.Nodup ∧
      (∀ y, v[y]? = some true ↔ y ∈ o) ∧ (∀ x ∈ pre, v[x]? = some true))
    ?_ ?_ ?_ (List.range adj_list.length) [] (List.replicate adj_list.length false) []
    (fun x hx => List.mem_range.mp hx)
    ⟨by simp, List.nodup_nil, fun y => by simpa using replicate_false_not_marked _ y,
      by simp⟩
  · obtain ⟨v, out, hrun, hlen, hnd, hiff, hpre⟩ := hrule
    refine ⟨out, by simp only [DFS, hrun], hnd, ?_⟩
    intro x
    constructor
    · intro hx
      rw [← hlen]
      exact lt_of_getElem?_eq_some _ _ _ ((hiff x).mpr hx)
    · intro hx
      exact (hiff x).mp (hpre x (by simpa using hx))
  · rintro pre v o x ⟨hlen, _⟩ hx
    rw [hlen]; exact hx
  · rintro pre v o x ⟨hlen, hnd, hiff, hpre⟩ _ hm
    refine ⟨hlen, hnd, hiff, ?_⟩
    intro y hy
    rcases List.mem_append.mp hy with h | h
    · exact hpre y h
    · have : y = x := by simpa using h
      subst this; exact hm
  · rintro pre v o x ⟨hlen, hnd, hiff, hpre⟩ hx hm
    have hcnt : (v.set x true).count false < fuel := by
      have := count_false_set_lt v x (by rw [hlen]; exact hx)
      omega
    obtain ⟨v', new, hrun, hg, _, _⟩ := DFSrec_spec adj_list hwf fuel v o x hlen hx hcnt
    obtain ⟨g1, g2, g3, g4, _⟩ := hg
    have hnew : ∀ y ∈ new, y ≠ x ∧ y ∉ o := by
      intro y hy
      have := (unmarked_set_iff v x y).mp (g3 y hy)
      refine ⟨this.1, fun hyo => ?_⟩
      have hmk := (hiff y).mpr hyo
      rw [this.2] at hmk
      simp at hmk
    have hxo : x ∉ o := by
      intro hxo
      have hmk := (hiff x).mpr hxo
      rw [hm] at hmk
      simp at hmk
    refine ⟨v', o ++ x :: new, hrun, by rw [g1, List.length_set, hlen], ?_, ?_, ?_⟩
    · refine List.Nodup.append hnd (List.nodup_cons.mpr ⟨fun h => (hnew x h).1 rfl, g2⟩) ?_
      intro y hy1 hy2
      rcases List.mem_cons.mp hy2 with h | h
      · subst h; exact hxo hy1
      · exact (hnew y h).2 hy1
    · intro y
      rw [g4 y, marked_set_iff, hiff y]
      simp only [List.mem_append, List.mem_cons]
      have hxl : x < v.length := by rw [hlen]; exact hx
      tauto
    · intro y hy
      rw [g4 y, marked_set_iff]
      rcases List.mem_append.mp hy with h | h
      · exact Or.inl (Or.inr (hpre y h))
      · have : y = x := by simpa using h
        subst this
        exact Or.inl (Or.inl ⟨rfl, by rw [hlen]; exact hx⟩)

/-- C6: on a well-formed graph the full-sweep `DFS` prints a permutation of `0..V-1`:
every vertex exactly once, connected or not. -/
theorem DFS_full_sweep_perm (adj_list : AdjList) (fuel : Nat)
    (hwf : WellFormed adj_list) (hfuel : adj_list.length ≤ fuel) :
    ∃ out, DFS fuel adj_list = .ok out ∧ out.Perm (List.range adj_list.length) := by
  obtain ⟨out, hrun, hnd, hmem⟩ := DFS_sweep_core adj_list fuel hwf hfuel
  exact ⟨out, hrun, perm_range_of_nodup hnd hmem⟩

theorem DFS_full_sweep_perm_witness :
    WellFormed [[1], [0], [], [4], [3]] ∧
    ∃ out, DFS 5 [[1], [0], [], [4], [3]] = .ok out ∧
      out.Perm (List.range ([[1], [0], [], [4], [3]] : AdjList).length) :=
  ⟨by decide, DFS_full_sweep_perm [[1], [0], [], [4], [3]] 5 (by decide) (by decide)⟩

/-! ## Topological sort by depth-first search -/

theorem Grow.perm {v1 v2 : List Bool} {l l' : List Nat} (h : Grow v1 v2 l)
    (hp : l.Perm l') : Grow v1 v2 l' := by
  obtain ⟨a1, a2, a3, a4, a5⟩ := h
  refine ⟨a1, hp.nodup_iff.mp a2, fun y hy => a3 y (hp.mem_iff.mpr hy), ?_, a5⟩
  intro y
  rw [a4 y, hp.mem_iff]

theorem popAll_eq (st ans : List Nat) : popAll st ans = ans ++ st := by
  induction st generalizing ans with
  | nil => simp [popAll]
  | cons top rest ih => simp [popAll, ih]

/-- What a call of `TopologicalSortDFS` does on a well-formed graph: it pushes distinct,
previously unmarked vertices and `i` on top of them; on an acyclic graph it keeps the
stack closed and topologically ordered. -/
theorem TopologicalSortDFS_spec (adj_list : AdjList) (hwf : WellFormed adj_list) :
    ∀ (fuel : Nat) (visited : List Bool) (stack : List Nat) (i : Nat),
      visited.length = adj_list.length → i < adj_list.length →
      (visited.set i true).count false < fuel →
      ∃ visited' added,
        TopologicalSortDFS adj_list fuel visited stack i = .ok (visited', i :: (added ++ stack)) ∧
        Grow (visited.set i true) visited' added ∧
        (Acyclic adj_list → visited[i]? = some false →
          (∀ u ∈ stack, visited[u]? = some true) →
          (∀ g, visited[g]? = some true → g ∉ stack → Reachable adj_list g i) →
          TopoClosed adj_list stack → TopoClosed adj_list (i :: (added ++ stack))) := by
  intro fuel
  induction fuel with
  | zero => intro visited stack i _ _ h; omega
  | succ fuel ih =>
    intro visited stack i hlen hi hfuel
    have hi' : i < visited.length := by rw [hlen]; exact hi
    have hnb : adj_list[i]? = some adj_list[i] := List.getElem?_eq_getElem hi
    have hrule := forUnvisited_rule (TopologicalSortDFS adj_list fuel)
      (fun x => x ∈ adj_list[i])
      (fun pre v st => ∃ added, st = added ++ stack ∧ Grow (visited.set i true) v added ∧
        (∀ x ∈ pre, v[x]? = some true) ∧
        (Acyclic adj_list → visited[i]? = some false →
          (∀ u ∈ stack, visited[u]? = some true) →
          (∀ g, visited[g]? = some true → g ∉ stack → Reachable adj_list g i) →
          TopoClosed adj_list stack → TopoClosed adj_list (added ++ stack)))
      ?_ ?_ ?_ adj_list[i] [] (visited.set i true) stack (fun x hx => hx)
      ⟨[], by simp, Grow.refl _, by simp, fun _ _ _ _ h => by simpa using h⟩
    · obtain ⟨visited', st', hrun, added, hst, hg, hpre, hdag⟩ := hrule
      subst hst
      refine ⟨visited', added, ?_, hg, ?_⟩
      · simp only [TopologicalSortDFS, if_pos hi', hnb, hrun]
      · intro hacyc hiu hstk hgray htc
        obtain ⟨hcl, hpw⟩ := hdag hacyc hiu hstk hgray htc
        have hinot : i ∉ added ++ stack := by
          intro h
          rcases List.mem_append.mp h with h | h
          · have := hg.2.2.1 i h
            rw [(marked_set_iff visited i i).mpr (Or.inl ⟨rfl, hi'⟩)] at this
            simp at this
          · have := hstk i h
            rw [hiu] at this
            simp at this
        constructor
        · intro u hu x hux
          rcases List.mem_cons.mp hu with h | h
          · subst h
            refine List.mem_cons_of_mem _ ?_
            have hxn : x ∈ adj_list[u] := by
              obtain ⟨nb, h1, h2⟩ := hux
              rw [hnb] at h1; cases h1; exact h2
            rcases (hg.2.2.2.1 x).mp (hpre x (by simpa using hxn)) with hm | hm
            · rcases (marked_set_iff visited u x).mp hm with ⟨hxu, _⟩ | hm'
              · subst hxu
                exact absurd (Relation.TransGen.single hux) (hacyc x)
              · by_cases hxs : x ∈ stack
                · exact List.mem_append_right _ hxs
                · exact absurd (Relation.TransGen.tail' (hgray x hm' hxs) hux) (hacyc x)
            · exact List.mem_append_left _ hm
          · exact List.mem_cons_of_mem _ (hcl u h x hux)
        · refine List.pairwise_cons.mpr ⟨?_, hpw⟩
          intro b hb hbi
          exact hinot (hcl b hb i hbi)
    · rintro pre v st x ⟨added, _, hg, _⟩ hx
      rw [hg.1, List.length_set, hlen]
      exact hwf _ (List.getElem_mem _) x hx
    · rintro pre v st x ⟨added, hst, hg, hpre, hdag⟩ _ hm
      refine ⟨added, hst, hg, ?_, hdag⟩
      intro y hy
      rcases List.mem_append.mp hy with h | h
      · exact hpre y h
      · have : y = x := by simpa using h
        subst this; exact hm
    · rintro pre v st x ⟨added, hst, hg, hpre, hdag⟩ hx hm
      subst hst
      have hvlen : v.length = adj_list.length := by rw [hg.1, List.length_set, hlen]
      have hxlt : x < adj_list.length := hwf _ (List.getElem_mem _) x hx
      have hcnt : (v.set x true).count false < fuel := by
        have h1 := count_false_set v x hm
        have h2 := hg.2.2.2.2
        omega
      obtain ⟨v', addedx, hrun, hgx, hdagx⟩ := ih v (added ++ stack) x hvlen hxlt hcnt
      have hg1 : Grow (visited.set i true) v' (x :: (addedx ++ added)) :=
        (Grow.trans (Grow.trans hg (Grow.set hm)) hgx).perm
          List.perm_middle
      refine ⟨v', x :: (addedx ++ (added ++ stack)), hrun, x :: (addedx ++ added), by simp,
        hg1, ?_, ?_⟩
      · intro y hy
        rw [hg1.2.2.2.1 y]
        rcases List.mem_append.mp hy with h | h
        · rcases (hg.2.2.2.1 y).mp (hpre y h) with h' | h'
          · exact Or.inl h'
          · exact Or.inr (by simp [h'])
        · have : y = x := by simpa using h
          subst this
          exact Or.inr (by simp)
      · intro hacyc hiu hstk hgray htc
        have htc' := hdag hacyc hiu hstk hgray htc
        have := hdagx hacyc hm ?_ ?_ htc'
        · simpa using this
        · intro u hu
          rw [hg.2.2.2.1 u]
          rcases List.mem_append.mp hu with h | h
          · exact Or.inr h
          · exact Or.inl ((marked_set_iff visited i u).mpr (Or.inr (hstk u h)))
        · intro g hgm hgn
          have hix : Edge adj_list i x := ⟨_, hnb, hx⟩
          rcases (hg.2.2.2.1 g).mp hgm with h | h
          · rcases (marked_set_iff visited i g).mp h with ⟨hgi, _⟩ | h'
            · subst hgi; exact Relation.ReflTransGen.single hix
            · exact (hgray g h' (fun hs => hgn (List.mem_append_right _ hs))).tail hix
          · exact absurd (List.mem_append_left _ h) hgn

theorem before_irrefl_of_nodup {l : List Nat} (hnd : l.Nodup) (a : Nat) : ¬ Before l a a := by
  rintro ⟨i, j, hij, hi, hj⟩
  have := List.getElem?_inj (lt_of_getElem?_eq_some _ _ _ hi) hnd (hi.trans hj.symm)
  omega

theorem before_trans_of_nodup {l : List Nat} (hnd : l.Nodup) {a b c : Nat}
    (hab : Before l a b) (hbc : Before l b c) : Before l a c := by
  obtain ⟨i, j, hij, hi, hj⟩ := hab
  obtain ⟨j', k, hjk, hj', hk⟩ := hbc
  have := List.getElem?_inj (lt_of_getElem?_eq_some _ _ _ hj) hnd (hj.trans hj'.symm)
  exact ⟨i, k, by omega, hi, hk⟩

/-- No list without duplicates puts `u` before `v` for every edge of a graph that has a
cycle. -/
theorem exists_edge_not_before {adj_list : AdjList} {l : List Nat} (hnd : l.Nodup)
    (hcyc : ¬ Acyclic adj_list) : ∃ u v, Edge adj_list u v ∧ ¬ Before l u v := by
  by_contra hall
  push_neg at hall
  apply hcyc
  intro c hc
  have key : ∀ a b, Relation.TransGen (Edge adj_list) a b → Before l a b := by
    intro a b hab
    induction hab with
    | single h => exact hall _ _ h
    | tail _ h ih => exact before_trans_of_nodup hnd ih (hall _ _ h)
  exact before_irrefl_of_nodup hnd c (key c c hc)

/-- A graph whose edges all lead to a larger index has no cycle. -/
theorem acyclic_of_increasing (adj_list : AdjList)
    (h : ∀ u, u < adj_list.length → ∀ v ∈ (adj_list[u]?).getD [], u < v) :
    Acyclic adj_list := by
  have key : ∀ a b, Relation.TransGen (Edge adj_list) a b → a < b := by
    intro a b hab
    have hedge : ∀ u v, Edge adj_list u v → u < v := by
      rintro u v ⟨nbrs, h1, h2⟩
      have := h u (lt_of_getElem?_eq_some _ _ _ h1) v
      rw [h1] at this
      exact this h2
    induction hab with
    | single h => exact hedge _ _ h
    | tail _ h ih => exact lt_trans ih (hedge _ _ h)
  intro c hc
  exact lt_irrefl c (key c c hc)

/-- The sweep of `DTopologicalSort` on a well-formed graph: the result is a permutation
of `0..V-1`, and on an acyclic graph no edge leads backwards in it. -/
theorem DTopologicalSort_core (adj_list : AdjList) (fuel : Nat)
    (hwf : WellFormed adj_list) (hfuel : adj_list.length ≤ fuel) :
    ∃ ans, DTopologicalSort fuel adj_list = .ok ans ∧
      ans.Perm (List.range adj_list.length) ∧
      (Acyclic adj_list → ans.Pairwise (fun a b => ¬ Edge adj_list b a)) := by
  have hrule := forUnvisited_rule (TopologicalSortDFS adj_list fuel)
    (fun x => x < adj_list.length)
    (fun pre v st => v.length = adj_list.length ∧ st.Nodup ∧
      (∀ y, v[y]? = some true ↔ y ∈ st) ∧ (∀ x ∈ pre, v[x]? = some true) ∧
      (Acyclic adj_list → TopoClosed adj_list st))
    ?_ ?_ ?_ (List.range adj_list.length) [] (List.replicate adj_list.length false) []
    (fun x hx => List.mem_range.mp hx)
    ⟨by simp, List.nodup_nil, fun y => by simpa using replicate_false_not_marked _ y,
      by simp, fun _ => ⟨by simp, List.Pairwise.nil⟩⟩
  · obtain ⟨v, st, hrun, hlen, hnd, hiff, hpre, hdag⟩ := hrule
    refine ⟨st, by simp only [DTopologicalSort, hrun, popAll_eq, List.nil_append],
      perm_range_of_nodup hnd ?_, fun h => (hdag h).2⟩
    intro x
    constructor
    · intro hx
      rw [← hlen]
      exact lt_of_getElem?_eq_some _ _ _ ((hiff x).mpr hx)
    · intro hx
      exact (hiff x).mp (hpre x (by simpa using hx))
  · rintro pre v st x ⟨hlen, _⟩ hx
    rw [hlen]; exact hx
  · rintro pre v st x ⟨hlen, hnd, hiff, hpre, hdag⟩ _ hm
    refine ⟨hlen, hnd, hiff, ?_, hdag⟩
    intro y hy
    rcases List.mem_append.mp hy with h | h
    · exact hpre y h
    · have : y = x := by simpa using h
      subst this; exact hm
  · rintro pre v st x ⟨hlen, hnd, hiff, hpre, hdag⟩ hx hm
    have hcnt : (v.set x true).count false < fuel := by
      have := count_false_set_lt v x (by rw [hlen]; exact hx)
      omega
    obtain ⟨v', added, hrun, hg, hdagx⟩ :=
      TopologicalSortDFS_spec adj_list hwf fuel v st x hlen hx hcnt
    obtain ⟨g1, g2, g3, g4, _⟩ := hg
    have hxl : x < v.length := by rw [hlen]; exact hx
    have hadded : ∀ y ∈ added, y ≠ x ∧ y ∉ st := by
      intro y hy
      have := (unmarked_set_iff v x y).mp (g3 y hy)
      refine ⟨this.1, fun hys => ?_⟩
      have hmk := (hiff y).mpr hys
      rw [this.2] at hmk
      simp at hmk
    have hxs : x ∉ st := by
      intro hxs
      have hmk := (hiff x).mpr hxs
      rw [hm] at hmk
      simp at hmk
    refine ⟨v', x :: (added ++ st), hrun, by rw [g1, List.length_set, hlen], ?_, ?_, ?_, ?_⟩
    · refine List.nodup_cons.mpr ⟨?_, List.Nodup.append g2 hnd ?_⟩
      · intro h
        rcases List.mem_append.mp h with h | h
        · exact (hadded x h).1 rfl
        · exact hxs h
      · intro y hy1 hy2
        exact (hadded y hy1).2 hy2
    · intro y
      rw [g4 y, marked_set_iff, hiff y]
      simp only [List.mem_append, List.mem_cons]
      tauto
    · intro y hy
      rw [g4 y, marked_set_iff]
      rcases List.mem_append.mp hy with h | h
      · exact Or.inl (Or.inr (hpre y h))
      · have : y = x := by simpa using h
        subst this
        exact Or.inl (Or.inl ⟨rfl, hxl⟩)
    · intro hacyc
      refine hdagx hacyc hm (fun u hu => (hiff u).mpr hu) ?_ (hdag hacyc)
      intro g hgm hgn
      exact absurd ((hiff g).mp hgm) hgn

/-- C3: on a well-formed directed acyclic graph `DTopologicalSort` returns a permutation
of `0..V-1` in which `u` appears strictly before `v` for every edge `u → v`. -/
theorem DTopologicalSort_topological (adj_list : AdjList) (fuel : Nat)
    (hwf : WellFormed adj_list) (hdag : Acyclic adj_list) (hfuel : adj_list.length ≤ fuel) :
    ∃ ans, DTopologicalSort fuel adj_list = .ok ans ∧
      ans.Perm (List.range adj_list.length) ∧
      ∀ u v, Edge adj_list u v → Before ans u v := by
  obtain ⟨ans, hrun, hperm, hpw⟩ := DTopologicalSort_core adj_list fuel hwf hfuel
  refine ⟨ans, hrun, hperm, ?_⟩
  intro u v huv
  have hu : u ∈ ans := hperm.mem_iff.mpr (List.mem_range.mpr (edge_lt_left huv))
  have hv : v ∈ ans := hperm.mem_iff.mpr (List.mem_range.mpr (edge_lt_right hwf huv))
  refine before_of_pairwise (hpw hdag) hu hv ?_ (fun h => h huv)
  intro huv'
  subst huv'
  exact hdag u (Relation.TransGen.single huv)

theorem DTopologicalSort_topological_witness :
    WellFormed [[1, 2], [3], [3], []] ∧ Acyclic [[1, 2], [3], [3], []] ∧
    ∃ ans, DTopologicalSort 4 [[1, 2], [3], [3], []] = .ok ans ∧
      ans.Perm (List.range ([[1, 2], [3], [3], []] : AdjList).length) ∧
      ∀ u v, Edge [[1, 2], [3], [3], []] u v → Before ans u v :=
  ⟨by decide, acyclic_of_increasing _ (by decide),
    DTopologicalSort_topological [[1, 2], [3], [3], []] 4 (by decide)
      (acyclic_of_increasing _ (by decide)) (by decide)⟩

/-- C9: on a well-formed graph that contains a directed cycle `DTopologicalSort` does not
detect the cycle: it still returns a permutation of `0..V-1`, in which some edge `u → v`
does not have `u` strictly before `v`. -/
theorem DTopologicalSort_cycle_undetected (adj_list : AdjList) (fuel : Nat)
    (hwf : WellFormed adj_list) (hcyc : ¬ Acyclic adj_list)
    (hfuel : adj_list.length ≤ fuel) :
    ∃ ans, DTopologicalSort fuel adj_list = .ok ans ∧
      ans.Perm (List.range adj_list.length) ∧
      ∃ u v, Edge adj_list u v ∧ ¬ Before ans u v := by
  obtain ⟨ans, hrun, hperm, _⟩ := DTopologicalSort_core adj_list fuel hwf hfuel
  exact ⟨ans, hrun, hperm,
    exists_edge_not_before (hperm.nodup_iff.mpr (List.nodup_range _)) hcyc⟩

theorem cycle_three : ¬ Acyclic [[1], [2], [0]] := by
  intro h
  refine h 0 ?_
  have e01 : Edge [[1], [2], [0]] 0 1 := ⟨[1], rfl, by simp⟩
  have e12 : Edge [[1], [2], [0]] 1 2 := ⟨[2], rfl, by simp⟩
  have e20 : Edge [[1], [2], [0]] 2 0 := ⟨[0], rfl, by simp⟩
  exact ((Relation.TransGen.single e01).tail e12).tail e20

theorem DTopologicalSort_cycle_undetected_witness :
    WellFormed [[1], [2], [0]] ∧ ¬ Acyclic [[1], [2], [0]] ∧
    ∃ ans, DTopologicalSort 3 [[1], [2], [0]] = .ok ans ∧
      ans.Perm (List.range ([[1], [2], [0]] : AdjList).length) ∧
      ∃ u v, Edge [[1], [2], [0]] u v ∧ ¬ Before ans u v :=
  ⟨by decide, cycle_three,
    DTopologicalSort_cycle_undetected [[1], [2], [0]] 3 (by decide) cycle_three (by decide)⟩

/-! ## Kahn's algorithm: in-degrees -/

theorem remIn_pop (adj_list : AdjList) (done : List Nat) (curr v : Nat) (nbrs : List Nat)
    (hnb : adj_list[curr]? = some nbrs) (hnot : curr ∉ done) :
    remIn adj_list done v = nbrs.count v + remIn adj_list (done ++ [curr]) v := by
  have hcurr : curr ∈ Finset.range adj_list.length :=
    Finset.mem_range.mpr (lt_of_getElem?_eq_some _ _ _ hnb)
  have hsingle : nbrs.count v = Finset.sum (Finset.range adj_list.length)
      (fun u => if u = curr then ((adj_list[u]?).getD []).count v else 0) := by
    rw [Finset.sum_ite_eq' _ curr, if_pos hcurr, hnb]
    rfl
  unfold remIn
  rw [hsingle, ← Finset.sum_add_distrib]
  refine Finset.sum_congr rfl (fun u _ => ?_)
  by_cases huc : u = curr
  · subst huc
    simp [hnot]
  · by_cases hud : u ∈ done <;> simp [huc, hud]

theorem remIn_eq_zero_iff (adj_list : AdjList) (done : List Nat) (v : Nat) :
    remIn adj_list done v = 0 ↔ ∀ u, Edge adj_list u v → u ∈ done := by
  unfold remIn
  rw [Finset.sum_eq_zero_iff]
  constructor
  · rintro h u ⟨nbrs, h1, h2⟩
    by_contra hu
    have := h u (Finset.mem_range.mpr (lt_of_getElem?_eq_some _ _ _ h1))
    rw [if_neg hu, h1] at this
    exact List.count_pos_iff.mpr h2 |>.ne' this
  · intro h u hu
    by_cases hud : u ∈ done
    · simp [hud]
    · rw [if_neg hud, List.count_eq_zero]
      intro hv
      have hlt := Finset.mem_range.mp hu
      exact hud (h u ⟨adj_list[u], List.getElem?_eq_getElem hlt,
        by simpa [List.getElem?_eq_getElem hlt] using hv⟩)

theorem sum_range_eq_list_sum (f : Nat → Nat) (n : Nat) :
    Finset.sum (Finset.range n) f = ((List.range n).map f).sum := by
  induction n with
  | zero => simp
  | succ n ih => simp [Finset.sum_range_succ, List.range_succ, ih]

theorem countRow_spec (xs : List Nat) :
    ∀ (indegree : List Int), (∀ x ∈ xs, x < indegree.length) →
    ∃ indegree', countRow indegree xs = .ok indegree' ∧
      indegree'.length = indegree.length ∧
      ∀ (v : Nat) (d : Int), indegree[v]? = some d →
        indegree'[v]? = some (d + (xs.count v : Int)) := by
  induction xs with
  | nil =>
    intro indegree _
    exact ⟨indegree, by simp [countRow], rfl, by simp⟩
  | cons x xs ih =>
    intro indegree hxs
    have hx : x < indegree.length := hxs x (List.mem_cons_self _ _)
    obtain ⟨ind', hrun, hlen, hval⟩ := ih (indegree.set x (indegree[x] + 1))
      (fun y hy => by simpa using hxs y (List.mem_cons_of_mem _ hy))
    refine ⟨ind', ?_, by simpa using hlen, ?_⟩
    · simp only [countRow, List.getElem?_eq_getElem hx]
      exact hrun
    · intro v d hv
      by_cases hvx : v = x
      · subst hvx
        have : (indegree.set v (indegree[v] + 1))[v]? = some (d + 1) := by
          rw [List.getElem?_eq_getElem hx] at hv
          cases hv
          simp [List.getElem?_set, hx]
        rw [hval v _ this]
        simp only [List.count_cons_self]
        push_cast
        congr 1
        ring
      · have : (indegree.set x (indegree[x] + 1))[v]? = some d := by
          rw [List.getElem?_set_ne (fun h => hvx h.symm)]
          exact hv
        rw [hval v _ this, List.count_cons_of_ne hvx]

theorem countIndegree_spec (adj_list : AdjList) (hwf : WellFormed adj_list) (is : List Nat) :
    ∀ (indegree : List Int), indegree.length = adj_list.length →
    (∀ i ∈ is, i < adj_list.length) →
    ∃ indegree', countIndegree adj_list is indegree = .ok indegree' ∧
      indegree'.length = adj_list.length ∧
      ∀ (v : Nat) (d : Int), indegree[v]? = some d →
        indegree'[v]? = some
          (d + ((is.map (fun u => ((adj_list[u]?).getD []).count v)).sum : Nat)) := by
  induction is with
  | nil =>
    intro indegree hlen _
    exact ⟨indegree, by simp [countIndegree], hlen, by simp⟩
  | cons i is ih =>
    intro indegree hlen his
    have hi : i < adj_list.length := his i (List.mem_cons_self _ _)
    have hnb : adj_list[i]? = some adj_list[i] := List.getElem?_eq_getElem hi
    obtain ⟨ind1, hrun1, hlen1, hval1⟩ := countRow_spec adj_list[i] indegree
      (fun x hx => by rw [hlen]; exact hwf _ (List.getElem_mem _) x hx)
    obtain ⟨ind2, hrun2, hlen2, hval2⟩ := ih ind1 (hlen1.trans hlen)
      (fun j hj => his j (List.mem_cons_of_mem _ hj))
    refine ⟨ind2, ?_, hlen2, ?_⟩
    · simp only [countIndegree, hnb, hrun1]
      exact hrun2
    · intro v d hv
      rw [hval2 v _ (hval1 v d hv)]
      simp only [List.map_cons, List.sum_cons, hnb, Option.getD_some]
      push_cast
      congr 1
      ring

theorem seedQueue_spec (indegree : List Int) (is : List Nat) :
    ∀ (q : List Nat), (∀ i ∈ is, i < indegree.length) →
    seedQueue indegree is q
      = .ok (q ++ is.filter (fun i => decide (indegree[i]? = some 0))) := by
  induction is with
  | nil => intro q _; simp [seedQueue]
  | cons i is ih =>
    intro q his
    have hi : i < indegree.length := his i (List.mem_cons_self _ _)
    have his' : ∀ j ∈ is, j < indegree.length := fun j hj => his j (List.mem_cons_of_mem _ hj)
    simp only [seedQueue, List.getElem?_eq_getElem hi]
    by_cases h0 : indegree[i] = 0
    · rw [if_pos h0, ih _ his']
      simp [List.filter_cons, List.getElem?_eq_getElem hi, h0]
    · rw [if_neg h0, ih _ his']
      simp [List.filter_cons, List.getElem?_eq_getElem hi, h0]

/-! ## Kahn's algorithm: the loop -/

theorem relax_spec (xs : List Nat) :
    ∀ (indegree : List Int) (q : List Nat), (∀ x ∈ xs, x < indegree.length) →
    (∀ (v : Nat) (d : Int), indegree[v]? = some d → (xs.count v : Int) ≤ d) →
    ∃ new indegree', relax indegree q xs = .ok (indegree', q ++ new) ∧
      indegree'.length = indegree.length ∧
      (∀ (v : Nat) (d : Int), indegree[v]? = some d →
        indegree'[v]? = some (d - (xs.count v : Int))) ∧
      new.Nodup ∧
      (∀ x, x ∈ new ↔ x ∈ xs ∧ indegree[x]? = some (xs.count x : Int)) := by
  induction xs with
  | nil =>
    intro indegree q _ _
    exact ⟨[], indegree, by simp [relax], rfl, by simp, List.nodup_nil, by simp⟩
  | cons x xs ih =>
    intro indegree q hxs hge
    have hx : x < indegree.length := hxs x (List.mem_cons_self _ _)
    have hxd : indegree[x]? = some indegree[x] := List.getElem?_eq_getElem hx
    have hd1 := hge x _ hxd
    simp only [List.count_cons_self] at hd1
    push_cast at hd1
    have hset_x : (indegree.set x (indegree[x] - 1))[x]? = some (indegree[x] - 1) := by
      simp [List.getElem?_set, hx]
    have hset_ne : ∀ v : Nat, v ≠ x →
        (indegree.set x (indegree[x] - 1))[v]? = indegree[v]? := by
      intro v hv
      exact List.getElem?_set_ne (fun h => hv h.symm)
    have hxs' : ∀ y ∈ xs, y < (indegree.set x (indegree[x] - 1)).length := by
      intro y hy; simpa using hxs y (List.mem_cons_of_mem _ hy)
    have hge' : ∀ (v : Nat) (d : Int), (indegree.set x (indegree[x] - 1))[v]? = some d →
        (xs.count v : Int) ≤ d := by
      intro v d hv
      by_cases hvx : v = x
      · subst hvx
        rw [hset_x] at hv
        cases hv
        omega
      · rw [hset_ne v hvx] at hv
        have := hge v d hv
        rw [List.count_cons_of_ne hvx] at this
        exact this
    have hval : ∀ (ind' : List Int),
        (∀ (v : Nat) (d : Int), (indegree.set x (indegree[x] - 1))[v]? = some d →
          ind'[v]? = some (d - (xs.count v : Int))) →
        ∀ (v : Nat) (d : Int), indegree[v]? = some d →
          ind'[v]? = some (d - ((x :: xs).count v : Int)) := by
      intro ind' h v d hv
      by_cases hvx : v = x
      · subst hvx
        rw [hxd] at hv
        cases hv
        rw [h v _ hset_x]
        simp only [List.count_cons_self]
        push_cast
        congr 1
        ring
      · rw [h v d (by rw [hset_ne v hvx]; exact hv), List.count_cons_of_ne hvx]
    by_cases hz : indegree[x] - 1 = 0
    · obtain ⟨new, ind', hrun, hlen, hv', hnd, hmem⟩ :=
        ih (indegree.set x (indegree[x] - 1)) (q ++ [x]) hxs' hge'
      have hcx : xs.count x = 0 := by omega
      have hxnot : x ∉ xs := List.count_eq_zero.mp hcx
      refine ⟨x :: new, ind', ?_, by simpa using hlen, hval ind' hv', ?_, ?_⟩
      · simp only [relax, hxd, if_pos hz]
        rw [hrun]; simp
      · exact List.nodup_cons.mpr ⟨fun h => hxnot ((hmem x).mp h).1, hnd⟩
      · intro y
        rw [List.mem_cons, hmem y]
        by_cases hyx : y = x
        · subst hyx
          simp only [List.mem_cons, true_or, true_and, List.count_cons_self, hxd, hcx]
          constructor
          · intro _
            congr 1
            push_cast
            omega
          · intro _; trivial
        · rw [hset_ne y hyx, List.count_cons_of_ne hyx]
          simp [hyx]
    · obtain ⟨new, ind', hrun, hlen, hv', hnd, hmem⟩ :=
        ih (indegree.set x (indegree[x] - 1)) q hxs' hge'
      refine ⟨new, ind', ?_, by simpa using hlen, hval ind' hv', hnd, ?_⟩
      · simp only [relax, hxd, if_neg hz]
        exact hrun
      · intro y
        rw [hmem y]
        by_cases hyx : y = x
        · subst hyx
          rw [hset_x, hxd]
          simp only [List.mem_cons, true_or, true_and, List.count_cons_self]
          constructor
          · rintro ⟨_, h⟩
            have := Option.some.inj h
            congr 1
            push_cast
            omega
          · intro h
            have := Option.some.inj h
            push_cast at this
            have hc : xs.count y ≠ 0 := by omega
            refine ⟨?_, by congr 1; omega⟩
            by_contra hn
            exact hc (List.count_eq_zero.mpr hn)
        · rw [hset_ne y hyx, List.count_cons_of_ne hyx]
          simp [hyx]

theorem nodup_length_le {l : List Nat} {V : Nat} (hnd : l.Nodup) (hlt : ∀ x ∈ l, x < V) :
    l.length ≤ V := by
  have h1 : l.toFinset ⊆ Finset.range V := by
    intro x hx
    exact Finset.mem_range.mpr (hlt x (List.mem_toFinset.mp hx))
  have h2 := Finset.card_le_card h1
  rw [List.toFinset_card_of_nodup hnd, Finset.card_range] at h2
  exact h2

/-- One iteration of the loop keeps `KahnInv`. -/
theorem KahnInv_step (adj_list : AdjList) (hwf : WellFormed adj_list)
    (indegree : List Int) (curr : Nat) (q ans nbrs : List Nat)
    (hinv : KahnInv adj_list indegree (curr :: q) ans)
    (hnb : adj_list[curr]? = some nbrs) :
    ∃ new indegree', relax indegree q nbrs = .ok (indegree', q ++ new) ∧
      new.Nodup ∧
      (∀ x, x ∈ new ↔ x ∈ nbrs ∧ remIn adj_list (ans ++ [curr]) x = 0) ∧
      KahnInv adj_list indegree' (q ++ new) (ans ++ [curr]) := by
  obtain ⟨klen, kval, knd, klt, kzero⟩ := hinv
  have hnbV : ∀ x ∈ nbrs, x < adj_list.length :=
    fun x hx => hwf nbrs (List.getElem?_mem hnb) x hx
  have hcnot : curr ∉ ans := by
    intro h
    have := List.nodup_append.mp knd
    exact this.2.2 h (List.mem_cons_self _ _)
  have hpop : ∀ v, remIn adj_list ans v = nbrs.count v + remIn adj_list (ans ++ [curr]) v :=
    fun v => remIn_pop adj_list ans curr v nbrs hnb hcnot
  have hge : ∀ (v : Nat) (d : Int), indegree[v]? = some d → (nbrs.count v : Int) ≤ d := by
    intro v d hv
    have hvlt : v < adj_list.length := by
      rw [← klen]; exact lt_of_getElem?_eq_some _ _ _ hv
    rw [kval v hvlt] at hv
    cases hv
    have := hpop v
    omega
  obtain ⟨new, ind', hrun, hlen, hval, hnd, hmem⟩ :=
    relax_spec nbrs indegree q (fun x hx => by rw [klen]; exact hnbV x hx) hge
  have hmem' : ∀ x, x ∈ new ↔ x ∈ nbrs ∧ remIn adj_list (ans ++ [curr]) x = 0 := by
    intro x
    rw [hmem x]
    constructor
    · rintro ⟨h1, h2⟩
      refine ⟨h1, ?_⟩
      rw [kval x (hnbV x h1)] at h2
      have := Option.some.inj h2
      have := hpop x
      omega
    · rintro ⟨h1, h2⟩
      refine ⟨h1, ?_⟩
      rw [kval x (hnbV x h1)]
      have := hpop x
      congr 1
      omega
  have hre : (ans ++ [curr]) ++ (q ++ new) = (ans ++ curr :: q) ++ new := by simp
  have hnew_old : ∀ x ∈ new, x ∉ ans ++ curr :: q := by
    intro x hx hold
    obtain ⟨h1, h2⟩ := (hmem' x).mp hx
    have hz := (kzero x (hnbV x h1)).mp hold
    have := hpop x
    have hc : 0 < nbrs.count x := List.count_pos_iff.mpr h1
    omega
  refine ⟨new, ind', hrun, hnd, hmem', hlen.trans klen, ?_, ?_, ?_, ?_⟩
  · intro v hv
    rw [hval v _ (kval v hv)]
    have := hpop v
    congr 1
    omega
  · rw [hre]
    exact List.Nodup.append knd hnd (fun x h1 h2 => hnew_old x h2 h1)
  · rw [hre]
    intro x hx
    rcases List.mem_append.mp hx with h | h
    · exact klt x h
    · exact hnbV x ((hmem' x).mp h).1
  · intro v hv
    rw [hre, List.mem_append, kzero v hv, hmem' v]
    have := hpop v
    constructor
    · rintro (h | h)
      · omega
      · exact h.2
    · intro h
      by_cases hz : remIn adj_list ans v = 0
      · exact Or.inl hz
      · refine Or.inr ⟨?_, h⟩
        by_contra hn
        have := List.count_eq_zero.mpr hn
        omega

/-- A Hoare-style rule for the `while` loop of `BFSTopologicalSort`: `KahnInv` is kept, and
so is every further invariant `Inv` that survives one iteration; a fuel of `V` minus the
number of popped vertices is enough. -/
theorem kahnWhile_rule (adj_list : AdjList) (hwf : WellFormed adj_list)
    (Inv : List Int → List Nat → List Nat → Prop)
    (hstep : ∀ indegree curr q ans nbrs new indegree',
      KahnInv adj_list indegree (curr :: q) ans → Inv indegree (curr :: q) ans →
      adj_list[curr]? = some nbrs → relax indegree q nbrs = .ok (indegree', q ++ new) →
      new.Nodup → (∀ x, x ∈ new ↔ x ∈ nbrs ∧ remIn adj_list (ans ++ [curr]) x = 0) →
      KahnInv adj_list indegree' (q ++ new) (ans ++ [curr]) →
      Inv indegree' (q ++ new) (ans ++ [curr])) :
    ∀ (fuel : Nat) (indegree : List Int) (q ans : List Nat),
      KahnInv adj_list indegree q ans → Inv indegree q ans →
      adj_list.length ≤ fuel + ans.length →
      ∃ res indegree', kahnWhile adj_list fuel indegree q ans = .ok res ∧
        KahnInv adj_list indegree' [] res ∧ Inv indegree' [] res := by
  intro fuel
  induction fuel with
  | zero =>
    intro indegree q ans hk hinv hfuel
    cases q with
    | nil => exact ⟨ans, indegree, by simp [kahnWhile], hk, hinv⟩
    | cons c q =>
      have := nodup_length_le hk.2.2.1 hk.2.2.2.1
      simp only [List.length_append, List.length_cons] at this
      omega
  | succ fuel ih =>
    intro indegree q ans hk hinv hfuel
    cases q with
    | nil => exact ⟨ans, indegree, by simp [kahnWhile], hk, hinv⟩
    | cons curr q =>
      have hcurr : curr < adj_list.length := hk.2.2.2.1 curr (by simp)
      have hnb : adj_list[curr]? = some adj_list[curr] := List.getElem?_eq_getElem hcurr
      obtain ⟨new, ind', hrun, hnd, hmem, hk'⟩ :=
        KahnInv_step adj_list hwf indegree curr q ans _ hk hnb
      have hinv' := hstep indegree curr q ans _ new ind' hk hinv hnb hrun hnd hmem hk'
      obtain ⟨res, ind'', hres, hk'', hinv''⟩ :=
        ih ind' (q ++ new) (ans ++ [curr]) hk' hinv'
          (by simp only [List.length_append, List.length_singleton]; omega)
      refine ⟨res, ind'', ?_, hk'', hinv''⟩
      simp only [kahnWhile, hnb, hrun]
      exact hres

/-! ## Kahn's algorithm: the whole function -/

theorem before_append_left {l : List Nat} {a b : Nat} (l' : List Nat) (h : Before l a b) :
    Before (l ++ l') a b := by
  obtain ⟨i, j, hij, hi, hj⟩ := h
  refine ⟨i, j, hij, ?_, ?_⟩
  · rw [List.getElem?_append_left (lt_of_getElem?_eq_some _ _ _ hi)]; exact hi
  · rw [List.getElem?_append_left (lt_of_getElem?_eq_some _ _ _ hj)]; exact hj

theorem before_append_singleton {l : List Nat} {a : Nat} (c : Nat) (h : a ∈ l) :
    Before (l ++ [c]) a c := by
  obtain ⟨i, hi, hia⟩ := List.getElem_of_mem h
  refine ⟨i, l.length, hi, ?_, by simp⟩
  rw [List.getElem?_append_left hi, List.getElem?_eq_getElem hi, hia]

theorem before_mem_left {l : List Nat} {a b : Nat} (h : Before l a b) : a ∈ l := by
  obtain ⟨i, _, _, hi, _⟩ := h
  exact List.getElem?_mem hi

theorem remIn_nil (adj_list : AdjList) (v : Nat) :
    remIn adj_list [] v
      = ((List.range adj_list.length).map
          (fun u => ((adj_list[u]?).getD []).count v)).sum := by
  unfold remIn
  rw [← sum_range_eq_list_sum]
  exact Finset.sum_congr rfl (fun u _ => by simp)

/-- The state in which the `while` loop of `BFSTopologicalSort` is entered. -/
theorem BFSTopologicalSort_entry (adj_list : AdjList) (hwf : WellFormed adj_list)
    (fuel : Nat) :
    ∃ indegree, KahnInv adj_list indegree
        ((List.range adj_list.length).filter (fun i => decide (remIn adj_list [] i = 0))) [] ∧
      BFSTopologicalSort fuel adj_list = kahnWhile adj_list fuel indegree
        ((List.range adj_list.length).filter (fun i => decide (remIn adj_list [] i = 0))) [] := by
  obtain ⟨indegree, hrun, hlen, hval⟩ := countIndegree_spec adj_list hwf
    (List.range adj_list.length) (List.replicate adj_list.length 0) (by simp)
    (fun i hi => List.mem_range.mp hi)
  have hval' : ∀ v, v < adj_list.length →
      indegree[v]? = some (remIn adj_list [] v : Int) := by
    intro v hv
    have h0 : (List.replicate adj_list.length (0 : Int))[v]? = some 0 := by
      rw [List.getElem?_replicate, if_pos hv]
    rw [hval v 0 h0, remIn_nil]
    simp
  have hfilter : (List.range adj_list.length).filter (fun i => decide (indegree[i]? = some 0))
      = (List.range adj_list.length).filter (fun i => decide (remIn adj_list [] i = 0)) := by
    apply List.filter_congr
    intro i hi
    rw [hval' i (List.mem_range.mp hi)]
    simp
  have hseed := seedQueue_spec indegree (List.range adj_list.length) []
    (fun i hi => by rw [hlen]; exact List.mem_range.mp hi)
  rw [List.nil_append, hfilter] at hseed
  refine ⟨indegree, ⟨hlen, hval', ?_, ?_, ?_⟩, ?_⟩
  · rw [List.nil_append]
    exact (List.nodup_range _).filter _
  · intro x hx
    rw [List.nil_append] at hx
    exact List.mem_range.mp (List.mem_filter.mp hx).1
  · intro v hv
    rw [List.nil_append, List.mem_filter, List.mem_range]
    simp [hv]
  · simp only [BFSTopologicalSort, hrun, hseed]

/-- Rule for the whole of `BFSTopologicalSort`: an invariant that holds of the seeded
queue and survives every iteration holds of the result. -/
theorem BFSTopologicalSort_rule (adj_list : AdjList) (hwf : WellFormed adj_list)
    (Inv : List Int → List Nat → List Nat → Prop)
    (hinit : ∀ indegree, Inv indegree
      ((List.range adj_list.length).filter (fun i => decide (remIn adj_list [] i = 0))) [])
    (hstep : ∀ indegree curr q ans nbrs new indegree',
      KahnInv adj_list indegree (curr :: q) ans → Inv indegree (curr :: q) ans →
      adj_list[curr]? = some nbrs → relax indegree q nbrs = .ok (indegree', q ++ new) →
      new.Nodup → (∀ x, x ∈ new ↔ x ∈ nbrs ∧ remIn adj_list (ans ++ [curr]) x = 0) →
      KahnInv adj_list indegree' (q ++ new) (ans ++ [curr]) →
      Inv indegree' (q ++ new) (ans ++ [curr]))
    (fuel : Nat) (hfuel : adj_list.length ≤ fuel) :
    ∃ ans indegree', BFSTopologicalSort fuel adj_list = .ok ans ∧
      KahnInv adj_list indegree' [] ans ∧ Inv indegree' [] ans := by
  obtain ⟨indegree, hk, heq⟩ := BFSTopologicalSort_entry adj_list hwf fuel
  obtain ⟨res, ind', hrun, hk', hinv'⟩ :=
    kahnWhile_rule adj_list hwf Inv hstep fuel indegree _ [] hk (hinit indegree)
      (by simpa using hfuel)
  exact ⟨res, ind', heq.trans hrun, hk', hinv'⟩

/-- What `BFSTopologicalSort` returns on a well-formed graph, cyclic or not: distinct
vertices; a vertex is returned exactly when all its predecessors are; and every
predecessor of a returned vertex comes strictly before it. -/
theorem BFSTopologicalSort_core (adj_list : AdjList) (fuel : Nat)
    (hwf : WellFormed adj_list) (hfuel : adj_list.length ≤ fuel) :
    ∃ ans, BFSTopologicalSort fuel adj_list = .ok ans ∧ ans.Nodup ∧
      (∀ x ∈ ans, x < adj_list.length) ∧
      (∀ v, v < adj_list.length → (v ∈ ans ↔ ∀ u, Edge adj_list u v → u ∈ ans)) ∧
      (∀ u v, Edge adj_list u v → v ∈ ans → Before ans u v) := by
  obtain ⟨ans, ind', hrun, hk, hord⟩ :=
    BFSTopologicalSort_rule adj_list hwf
      (fun _ _ ans => ∀ u v, Edge adj_list u v → v ∈ ans → Before ans u v)
      (fun _ u v _ hv => by simp at hv)
      (by
        intro indegree curr q ans nbrs new indegree' hk hinv _ _ _ _ _ u v huv hv
        rcases List.mem_append.mp hv with h | h
        · exact before_append_left _ (hinv u v huv h)
        · have hvc : v = curr := by simpa using h
          subst hvc
          have hz := (hk.2.2.2.2 v (hk.2.2.2.1 v (by simp))).mp (by simp)
          exact before_append_singleton v ((remIn_eq_zero_iff adj_list ans v).mp hz u huv))
      fuel hfuel
  obtain ⟨_, _, knd, klt, kzero⟩ := hk
  simp only [List.append_nil] at knd klt kzero
  refine ⟨ans, hrun, knd, klt, ?_, hord⟩
  intro v hv
  rw [kzero v hv, remIn_eq_zero_iff]

/-- In an acyclic graph, a set of vertices in which every member has a predecessor in the
set is empty. -/
theorem acyclic_no_predecessor_closed (adj_list : AdjList) (hacyc : Acyclic adj_list)
    (U : Nat → Prop) (hU : ∀ v, U v → v < adj_list.length ∧ ∃ u, U u ∧ Edge adj_list u v) :
    ∀ v, ¬ U v := by
  let r : Fin adj_list.length → Fin adj_list.length → Prop :=
    fun a b => Relation.TransGen (Edge adj_list) a.val b.val
  haveI : IsTrans (Fin adj_list.length) r := ⟨fun _ _ _ h1 h2 => Relation.TransGen.trans h1 h2⟩
  haveI : IsIrrefl (Fin adj_list.length) r := ⟨fun a h => hacyc a.val h⟩
  have hwf : WellFounded r := Finite.wellFounded_of_trans_of_irrefl r
  intro v hv
  obtain ⟨m, hm, hmin⟩ := hwf.has_min {a : Fin adj_list.length | U a.val}
    ⟨⟨v, (hU v hv).1⟩, hv⟩
  obtain ⟨u, hu, hum⟩ := (hU m.val hm).2
  exact hmin ⟨u, (hU u hu).1⟩ hu (Relation.TransGen.single hum)

/-- No vertex on a cycle is returned by `BFSTopologicalSort`. -/
theorem not_mem_of_onCycle {adj_list : AdjList} {ans : List Nat} (hnd : ans.Nodup)
    (hord : ∀ u v, Edge adj_list u v → v ∈ ans → Before ans u v)
    {c : Nat} (hc : OnCycle adj_list c) : c ∉ ans := by
  intro hmem
  have key : ∀ a b, Relation.TransGen (Edge adj_list) a b → b ∈ ans → Before ans a b := by
    intro a b hab
    induction hab with
    | single h => exact fun hb => hord _ _ h hb
    | tail _ h ih =>
      intro hb
      have h2 := hord _ _ h hb
      exact before_trans_of_nodup hnd (ih (before_mem_left h2)) h2
  exact before_irrefl_of_nodup hnd c (key c c hc hmem)

theorem transGen_edge_lt_left {adj_list : AdjList} {a b : Nat}
    (h : Relation.TransGen (Edge adj_list) a b) : a < adj_list.length := by
  induction h with
  | single h => exact edge_lt_left h
  | tail _ _ ih => exact ih

/-- On an acyclic graph every vertex is returned, given the facts of
`BFSTopologicalSort_core`. -/
theorem kahn_complete {adj_list : AdjList} (hacyc : Acyclic adj_list) {ans : List Nat}
    (hiff : ∀ v, v < adj_list.length → (v ∈ ans ↔ ∀ u, Edge adj_list u v → u ∈ ans)) :
    ∀ v, v < adj_list.length → v ∈ ans := by
  intro v hv
  by_contra hnot
  refine acyclic_no_predecessor_closed adj_list hacyc
    (fun x => x < adj_list.length ∧ x ∉ ans) ?_ v ⟨hv, hnot⟩
  rintro x ⟨hx, hxn⟩
  refine ⟨hx, ?_⟩
  have := mt (hiff x hx).mpr hxn
  push_neg at this
  obtain ⟨u, hux, hun⟩ := this
  exact ⟨u, ⟨edge_lt_left hux, hun⟩, hux⟩

/-- C4: on a well-formed directed acyclic graph (duplicate edges allowed)
`BFSTopologicalSort` returns a sequence of length `V` that is a permutation of `0..V-1`
in which `u` appears strictly before `v` for every edge `u → v`. -/
theorem BFSTopologicalSort_topological (adj_list : AdjList) (fuel : Nat)
    (hwf : WellFormed adj_list) (hdag : Acyclic adj_list) (hfuel : adj_list.length ≤ fuel) :
    ∃ ans, BFSTopologicalSort fuel adj_list = .ok ans ∧ ans.length = adj_list.length ∧
      ans.Perm (List.range adj_list.length) ∧
      ∀ u v, Edge adj_list u v → Before ans u v := by
  obtain ⟨ans, hrun, hnd, hlt, hiff, hord⟩ := BFSTopologicalSort_core adj_list fuel hwf hfuel
  have hall := kahn_complete hdag hiff
  have hperm : ans.Perm (List.range adj_list.length) :=
    perm_range_of_nodup hnd (fun x => ⟨hlt x, hall x⟩)
  refine ⟨ans, hrun, by simpa using hperm.length_eq, hperm, ?_⟩
  intro u v huv
  exact hord u v huv (hall v (edge_lt_right hwf huv))

theorem BFSTopologicalSort_topological_witness :
    WellFormed [[1, 2, 1], [3], [3], []] ∧ Acyclic [[1, 2, 1], [3], [3], []] ∧
    ∃ ans, BFSTopologicalSort 4 [[1, 2, 1], [3], [3], []] = .ok ans ∧
      ans.length = ([[1, 2, 1], [3], [3], []] : AdjList).length ∧
      ans.Perm (List.range ([[1, 2, 1], [3], [3], []] : AdjList).length) ∧
      ∀ u v, Edge [[1, 2, 1], [3], [3], []] u v → Before ans u v :=
  ⟨by decide, acyclic_of_increasing _ (by decide),
    BFSTopologicalSort_topological [[1, 2, 1], [3], [3], []] 4 (by decide)
      (acyclic_of_increasing _ (by decide)) (by decide)⟩

/-- C5: on a well-formed graph the length of the sequence returned by
`BFSTopologicalSort` equals `V` exactly when the graph has no directed cycle (a self-loop
is a cycle); on a graph with a cycle the result is strictly shorter than `V`. -/
theorem BFSTopologicalSort_length_iff_acyclic (adj_list : AdjList) (fuel : Nat)
    (hwf : WellFormed adj_list) (hfuel : adj_list.length ≤ fuel) :
    ∃ ans, BFSTopologicalSort fuel adj_list = .ok ans ∧
      (ans.length = adj_list.length ↔ Acyclic adj_list) ∧
      (¬ Acyclic adj_list → ans.length < adj_list.length) := by
  obtain ⟨ans, hrun, hnd, hlt, hiff, hord⟩ := BFSTopologicalSort_core adj_list fuel hwf hfuel
  have hshort : ¬ Acyclic adj_list → ans.length < adj_list.length := by
    intro hcyc
    unfold Acyclic at hcyc
    push_neg at hcyc
    obtain ⟨c, hc⟩ := hcyc
    have hcn : c ∉ ans := not_mem_of_onCycle hnd hord hc
    have := nodup_length_le (List.nodup_cons.mpr ⟨hcn, hnd⟩) (V := adj_list.length)
      (by
        intro x hx
        rcases List.mem_cons.mp hx with h | h
        · rw [h]; exact transGen_edge_lt_left hc
        · exact hlt x h)
    simp only [List.length_cons] at this
    omega
  refine ⟨ans, hrun, ⟨?_, ?_⟩, hshort⟩
  · intro hlen
    by_contra hcyc
    have := hshort hcyc
    omega
  · intro hacyc
    have hperm : ans.Perm (List.range adj_list.length) :=
      perm_range_of_nodup hnd (fun x => ⟨hlt x, kahn_complete hacyc hiff x⟩)
    simpa using hperm.length_eq

theorem BFSTopologicalSort_length_iff_acyclic_witness :
    WellFormed [[1], [0], [2], []] ∧
    ∃ ans, BFSTopologicalSort 4 [[1], [0], [2], []] = .ok ans ∧
      (ans.length = ([[1], [0], [2], []] : AdjList).length ↔ Acyclic [[1], [0], [2], []]) ∧
      (¬ Acyclic [[1], [0], [2], []] → ans.length < ([[1], [0], [2], []] : AdjList).length) :=
  ⟨by decide,
    BFSTopologicalSort_length_iff_acyclic [[1], [0], [2], []] 4 (by decide) (by decide)⟩

/-- C8: on a well-formed graph no vertex that lies on a directed cycle appears in the
sequence returned by `BFSTopologicalSort`; on the graph `0 → 1, 1 → 2, 2 → 0` the result
is the empty sequence. -/
theorem BFSTopologicalSort_skips_cycles (adj_list : AdjList) (fuel : Nat)
    (hwf : WellFormed adj_list) (hfuel : adj_list.length ≤ fuel) :
    (∃ ans, BFSTopologicalSort fuel adj_list = .ok ans ∧
      ∀ c, OnCycle adj_list c → c ∉ ans) ∧
    BFSTopologicalSort fuel [[1], [2], [0]] = .ok [] := by
  obtain ⟨ans, hrun, hnd, _, _, hord⟩ := BFSTopologicalSort_core adj_list fuel hwf hfuel
  refine ⟨⟨ans, hrun, fun c hc => not_mem_of_onCycle hnd hord hc⟩, ?_⟩
  cases fuel <;> rfl

theorem BFSTopologicalSort_skips_cycles_witness :
    WellFormed [[1], [2], [0], [0]] ∧
    ((∃ ans, BFSTopologicalSort 4 [[1], [2], [0], [0]] = .ok ans ∧
      ∀ c, OnCycle [[1], [2], [0], [0]] c → c ∉ ans) ∧
    BFSTopologicalSort 4 [[1], [2], [0]] = .ok []) :=
  ⟨by decide, BFSTopologicalSort_skips_cycles [[1], [2], [0], [0]] 4 (by decide) (by decide)⟩

/-! ## Totality (C10) and the sweep of `main` (C7) -/

/-- C10: on a well-formed adjacency list of length `V` each of `DFS`, `DTopologicalSort`
and `BFSTopologicalSort`, and for every source `S < V` and every `visited` array of length
`V` each of `BFS`, `DFSrec` and `TopologicalSortDFS`, returns a value: it terminates (a
fuel of `V` is enough) and never takes the index-error branch. -/
theorem traversals_total (adj_list : AdjList) (fuel V : Nat)
    (hwf : WellFormed adj_list) (hV : adj_list.length = V) (hfuel : V ≤ fuel) :
    (∀ (S : Nat) (visited : List Bool) (out topo_stack : List Nat),
      S < V → visited.length = V →
      (∃ r, BFS fuel adj_list visited V S = .ok r) ∧
      (∃ r, DFSrec adj_list fuel visited out S = .ok r) ∧
      (∃ r, TopologicalSortDFS adj_list fuel visited topo_stack S = .ok r)) ∧
    (∃ r, DFS fuel adj_list = .ok r) ∧
    (∃ r, DTopologicalSort fuel adj_list = .ok r) ∧
    (∃ r, BFSTopologicalSort fuel adj_list = .ok r) := by
  subst hV
  refine ⟨?_, ?_, ?_, ?_⟩
  · intro S visited out topo_stack hS hvis
    have hcnt : (visited.set S true).count false < fuel := by
      have := count_false_set_lt visited S (by rw [hvis]; exact hS)
      omega
    refine ⟨?_, ?_, ?_⟩
    · obtain ⟨res, vis', h, _⟩ :=
        BFS_core adj_list hwf fuel adj_list.length S visited hvis hS hfuel
      exact ⟨_, h⟩
    · obtain ⟨vis', new, h, _⟩ := DFSrec_spec adj_list hwf fuel visited out S hvis hS hcnt
      exact ⟨_, h⟩
    · obtain ⟨vis', added, h, _⟩ :=
        TopologicalSortDFS_spec adj_list hwf fuel visited topo_stack S hvis hS hcnt
      exact ⟨_, h⟩
  · obtain ⟨r, h, _⟩ := DFS_sweep_core adj_list fuel hwf hfuel
    exact ⟨_, h⟩
  · obtain ⟨r, h, _⟩ := DTopologicalSort_core adj_list fuel hwf hfuel
    exact ⟨_, h⟩
  · obtain ⟨r, h, _⟩ := BFSTopologicalSort_core adj_list fuel hwf hfuel
    exact ⟨_, h⟩

theorem traversals_total_witness :
    WellFormed [[1, 1], [2], [0, 2], [3]] ∧
    ((∀ (S : Nat) (visited : List Bool) (out topo_stack : List Nat),
      S < 4 → visited.length = 4 →
      (∃ r, BFS 4 [[1, 1], [2], [0, 2], [3]] visited 4 S = .ok r) ∧
      (∃ r, DFSrec [[1, 1], [2], [0, 2], [3]] 4 visited out S = .ok r) ∧
      (∃ r, TopologicalSortDFS [[1, 1], [2], [0, 2], [3]] 4 visited topo_stack S = .ok r)) ∧
    (∃ r, DFS 4 [[1, 1], [2], [0, 2], [3]] = .ok r) ∧
    (∃ r, DTopologicalSort 4 [[1, 1], [2], [0, 2], [3]] = .ok r) ∧
    (∃ r, BFSTopologicalSort 4 [[1, 1], [2], [0, 2], [3]] = .ok r)) :=
  ⟨by decide,
    traversals_total [[1, 1], [2], [0, 2], [3]] 4 4 (by decide) rfl (by decide)⟩

/-- C7 (the code at a failing input): on the graph that `main` builds from the pairs
`1 2`, `3 4`, `5 6`, `7 8`, `9 10`, the sweep of lines 64-66 started on fresh marks
returns a vertex again for every index that an earlier call has already covered, so the
concatenation of the returned sequences is not a permutation of `0..9`. -/
theorem BFS_sweep_repeats_vertices :
    ∃ answers visited',
      BFS_sweep 10 [[1], [0], [3], [2], [5], [4], [7], [6], [9], [8]] 10 (List.range 10)
        (List.replicate 10 false) [] = .ok (answers, visited') ∧
      answers = [[0, 1], [1], [2, 3], [3], [4, 5], [5], [6, 7], [7], [8, 9], [9]] ∧
      ¬ answers.flatten.Perm (List.range 10) :=
  ⟨_, _, rfl, rfl, by decide⟩

/-! ## The scenarios of the specification, evaluated -/

/-- Scenario 1: on the path `1-2-3-4` (0-based `0-1-2-3`) `BFS` from vertex 0 yields
`[0, 1, 2, 3]` and marks every vertex. -/
theorem scenario_BFS_path :
    BFS 4 [[1], [0, 2], [1, 3], [2]] (List.replicate 4 false) 4 0
      = .ok ([0, 1, 2, 3], [true, true, true, true]) := rfl

/-- Scenario 2: on the same graph the full sweep of `DFS` prints `[0, 1, 2, 3]`. -/
theorem scenario_DFS_path : DFS 4 [[1], [0, 2], [1, 3], [2]] = .ok [0, 1, 2, 3] := rfl

/-- Scenario 3: on the DAG `0 → 1, 0 → 2, 1 → 3, 2 → 3` `BFSTopologicalSort` yields
`[0, 1, 2, 3]`. -/
theorem scenario_Kahn_diamond :
    BFSTopologicalSort 4 [[1, 2], [3], [3], []] = .ok [0, 1, 2, 3] := rfl

/-! ## BFS and DFSrec on marks that are partly set (C14, C15, C16) -/

/-- The result of `BFS`, for any initial marks, holds every vertex that the source reaches
through vertices that were unmarked at call time. -/
theorem BFS_inv_complete {adj_list : AdjList} {visited visited' : List Bool} {S : Nat}
    {res : List Nat} (hinv : BFS_inv adj_list (visited.set S true) S visited' [] res)
    {v : Nat} (hv : ReachableUnvisited adj_list visited S v) : v ∈ res := by
  obtain ⟨_, i2, i3, _, i5, _⟩ := hinv
  simp only [List.append_nil] at i2 i3
  have hSres : S ∈ res := by
    obtain ⟨t, ht⟩ := i2
    rw [ht]; exact List.mem_cons_self _ _
  induction hv with
  | refl => exact hSres
  | @tail u w _ huw ih =>
    rcases (i3 w).mp (i5 u ih w huw.1) with h | h
    · rcases (marked_set_iff visited S w).mp h with ⟨hws, _⟩ | h'
      · rw [hws]; exact hSres
      · rw [huw.2] at h'; simp at h'
    · exact h

/-- C14: the only effect of `BFS` on `visited` is to mark the vertices it returns: the
array keeps its length, and an entry is true afterwards exactly when it was true before or
its vertex occurs in the returned sequence.  The adjacency list is only read: the
embedding, like the source, has no write to it. -/
theorem BFS_marks_exactly_result (adj_list : AdjList) (fuel V S : Nat) (visited : List Bool)
    (hwf : WellFormed adj_list) (hV : adj_list.length = V) (hS : S < V)
    (hvis : visited.length = V) (hfuel : V ≤ fuel) :
    ∃ res visited', BFS fuel adj_list visited V S = .ok (res, visited') ∧
      visited'.length = visited.length ∧
      ∀ v, visited'[v]? = some true ↔ (visited[v]? = some true ∨ v ∈ res) := by
  subst hV
  obtain ⟨res, visited', hrun, hlen', _, i2, i3, _, _, _⟩ :=
    BFS_core adj_list hwf fuel adj_list.length S visited hvis hS hfuel
  simp only [List.append_nil] at i2 i3
  have hSres : S ∈ res := by
    obtain ⟨t, ht⟩ := i2
    rw [ht]; exact List.mem_cons_self _ _
  refine ⟨res, visited', hrun, hlen'.trans hvis.symm, ?_⟩
  intro v
  rw [i3 v, marked_set_iff]
  constructor
  · rintro ((⟨h, _⟩ | h) | h)
    · rw [h]; exact Or.inr hSres
    · exact Or.inl h
    · exact Or.inr h
  · rintro (h | h)
    · exact Or.inl (Or.inr h)
    · exact Or.inr h

theorem BFS_marks_exactly_result_witness :
    WellFormed [[1], [2], [0], [0]] ∧
    ∃ res visited', BFS 4 [[1], [2], [0], [0]] [false, false, true, false] 4 0
        = .ok (res, visited') ∧
      visited'.length = [false, false, true, false].length ∧
      ∀ v, visited'[v]? = some true ↔ ([false, false, true, false][v]? = some true ∨ v ∈ res) :=
  ⟨by decide, BFS_marks_exactly_result [[1], [2], [0], [0]] 4 4 0 [false, false, true, false]
    (by decide) rfl (by decide) rfl (by decide)⟩

/-- C15: `BFS` on a shared, partly-true `visited`: the returned sequence starts with `S`,
has no duplicates and at most `V` elements, and apart from `S` it holds exactly the
vertices that were unvisited at call time and that `S` reaches by a path whose vertices
after `S` were all unvisited at call time; no other previously visited vertex is
returned. -/
theorem BFS_partly_visited (adj_list : AdjList) (fuel V S : Nat) (visited : List Bool)
    (hwf : WellFormed adj_list) (hV : adj_list.length = V) (hS : S < V)
    (hvis : visited.length = V) (hfuel : V ≤ fuel) :
    ∃ res visited', BFS fuel adj_list visited V S = .ok (res, visited') ∧
      (∃ t, res = S :: t) ∧ res.Nodup ∧ res.length ≤ V ∧
      (∀ v, v ≠ S → (v ∈ res ↔
        visited[v]? = some false ∧ ReachableUnvisited adj_list visited S v)) ∧
      (∀ v ∈ res, visited[v]? = some true → v = S) := by
  subst hV
  obtain ⟨res, visited', hrun, hlen', hinv⟩ :=
    BFS_core adj_list hwf fuel adj_list.length S visited hvis hS hfuel
  have hcomplete := @BFS_inv_complete adj_list visited visited' S res hinv
  obtain ⟨i1, i2, i3, i4, i5, i6⟩ := hinv
  simp only [List.append_nil] at i1 i2 i3 i4 i6
  have hunv : ∀ v ∈ res, v ≠ S → visited[v]? = some false :=
    fun v hv hne => ((unmarked_set_iff visited S v).mp (i4 v hv hne)).2
  have hlt : ∀ v ∈ res, v < adj_list.length := by
    intro v hv
    by_cases hvS : v = S
    · rw [hvS]; exact hS
    · rw [← hvis]; exact lt_of_getElem?_eq_some _ _ _ (hunv v hv hvS)
  refine ⟨res, visited', hrun, i2, i1, nodup_length_le i1 hlt, ?_, ?_⟩
  · intro v hvS
    constructor
    · intro hv
      refine ⟨hunv v hv hvS, Relation.ReflTransGen.mono ?_ (i6 v hv)⟩
      intro a b hab
      exact ⟨hab.1, ((unmarked_set_iff visited S b).mp hab.2).2⟩
    · rintro ⟨_, hreach⟩
      exact hcomplete hreach
  · intro v hv hm
    by_contra hvS
    rw [hunv v hv hvS] at hm
    simp at hm

theorem BFS_partly_visited_witness :
    WellFormed [[1, 2], [3], [3], [0]] ∧
    ∃ res visited', BFS 4 [[1, 2], [3], [3], [0]] [true, false, true, false] 4 0
        = .ok (res, visited') ∧
      (∃ t, res = 0 :: t) ∧ res.Nodup ∧ res.length ≤ 4 ∧
      (∀ v, v ≠ 0 → (v ∈ res ↔
        [true, false, true, false][v]? = some false ∧
          ReachableUnvisited [[1, 2], [3], [3], [0]] [true, false, true, false] 0 v)) ∧
      (∀ v ∈ res, [true, false, true, false][v]? = some true → v = 0) :=
  ⟨by decide, BFS_partly_visited [[1, 2], [3], [3], [0]] 4 4 0 [true, false, true, false]
    (by decide) rfl (by decide) rfl (by decide)⟩

/-- C16: `DFSrec` visits exactly the unvisited-reachable region: called on a vertex
`s < V` that is unvisited, it prints `s` first and then, each exactly once, exactly the
vertices that `s` reaches by a path of vertices unvisited at call time; the printed
vertices were all unvisited, and afterwards `visited` is the initial array with exactly
the printed vertices additionally set. -/
theorem DFSrec_unvisited_region (adj_list : AdjList) (fuel V s : Nat) (visited : List Bool)
    (out : List Nat)
    (hwf : WellFormed adj_list) (hV : adj_list.length = V) (hs : s < V)
    (hvis : visited.length = V) (hsu : visited[s]? = some false) (hfuel : V ≤ fuel) :
    ∃ visited' new, DFSrec adj_list fuel visited out s = .ok (visited', out ++ s :: new) ∧
      (s :: new).Nodup ∧
      (∀ y, y ∈ s :: new ↔ ReachableUnvisited adj_list visited s y) ∧
      (∀ y ∈ s :: new, visited[y]? = some false) ∧
      visited'.length = visited.length ∧
      (∀ y, visited'[y]? = some true ↔ (visited[y]? = some true ∨ y ∈ s :: new)) := by
  subst hV
  have hs' : s < visited.length := by rw [hvis]; exact hs
  have hcnt : (visited.set s true).count false < fuel := by
    have := count_false_set_lt visited s hs'
    omega
  obtain ⟨visited', new, hrun, ⟨g1, g2, g3, g4, _⟩, hcl, hreach⟩ :=
    DFSrec_spec adj_list hwf fuel visited out s hvis hs hcnt
  have hmark : ∀ y, visited'[y]? = some true ↔ (visited[y]? = some true ∨ y ∈ s :: new) := by
    intro y
    rw [g4 y, marked_set_iff, List.mem_cons]
    tauto
  refine ⟨visited', new, hrun, ?_, ?_, ?_, by rw [g1, List.length_set], hmark⟩
  · refine List.nodup_cons.mpr ⟨?_, g2⟩
    intro h
    exact ((unmarked_set_iff visited s s).mp (g3 s h)).1 rfl
  · intro y
    constructor
    · intro hy
      rcases List.mem_cons.mp hy with h | h
      · rw [h]; exact Relation.ReflTransGen.refl
      · exact hreach y h
    · intro hy
      induction hy with
      | refl => exact List.mem_cons_self _ _
      | @tail u w _ huw ih =>
        rcases (hmark w).mp (hcl u ih w huw.1) with h | h
        · rw [huw.2] at h; simp at h
        · exact h
  · intro y hy
    rcases List.mem_cons.mp hy with h | h
    · rw [h]; exact hsu
    · exact ((unmarked_set_iff visited s y).mp (g3 y h)).2

theorem DFSrec_unvisited_region_witness :
    WellFormed [[1, 2], [3], [3], [0]] ∧
    ∃ visited' new, DFSrec [[1, 2], [3], [3], [0]] 4 [false, false, true, false] [] 0
        = .ok (visited', [] ++ 0 :: new) ∧
      (0 :: new).Nodup ∧
      (∀ y, y ∈ 0 :: new ↔
        ReachableUnvisited [[1, 2], [3], [3], [0]] [false, false, true, false] 0 y) ∧
      (∀ y ∈ 0 :: new, [false, false, true, false][y]? = some false) ∧
      visited'.length = [false, false, true, false].length ∧
      (∀ y, visited'[y]? = some true ↔
        ([false, false, true, false][y]? = some true ∨ y ∈ 0 :: new)) :=
  ⟨by decide, DFSrec_unvisited_region [[1, 2], [3], [3], [0]] 4 4 0
    [false, false, true, false] [] (by decide) rfl (by decide) rfl rfl (by decide)⟩

/-- C18: partial results of Kahn's algorithm are consistently ordered: on every
well-formed graph, cyclic or not, duplicate edges allowed, the sequence returned by
`BFSTopologicalSort` has no duplicate vertex, and for every edge `u → v` whose target
occurs in the result, `u` occurs in the result, strictly before `v`. -/
theorem BFSTopologicalSort_partial_order (adj_list : AdjList) (fuel : Nat)
    (hwf : WellFormed adj_list) (hfuel : adj_list.length ≤ fuel) :
    ∃ ans, BFSTopologicalSort fuel adj_list = .ok ans ∧ ans.Nodup ∧
      ∀ u v, Edge adj_list u v → v ∈ ans → u ∈ ans ∧ Before ans u v := by
  obtain ⟨ans, hrun, hnd, _, _, hord⟩ := BFSTopologicalSort_core adj_list fuel hwf hfuel
  refine ⟨ans, hrun, hnd, ?_⟩
  intro u v huv hv
  have hb := hord u v huv hv
  exact ⟨before_mem_left hb, hb⟩

theorem BFSTopologicalSort_partial_order_witness :
    WellFormed [[1, 1, 2], [], [3], [2], [3]] ∧
    ∃ ans, BFSTopologicalSort 5 [[1, 1, 2], [], [3], [2], [3]] = .ok ans ∧ ans.Nodup ∧
      ∀ u v, Edge [[1, 1, 2], [], [3], [2], [3]] u v → v ∈ ans → u ∈ ans ∧ Before ans u v :=
  ⟨by decide, BFSTopologicalSort_partial_order [[1, 1, 2], [], [3], [2], [3]] 5
    (by decide) (by decide)⟩

/-! ## Kahn's algorithm: the seeds come first (C17) -/

theorem remIn_nil_eq_inDegree (adj_list : AdjList) (v : Nat) :
    remIn adj_list [] v = inDegree adj_list v := by
  rw [remIn_nil, inDegree]
  congr 1
  apply List.ext_getElem
  · simp
  · intro i h1 h2
    have hi : i < adj_list.length := by simpa using h1
    simp [List.getElem?_eq_getElem hi]

theorem seeds_eq (adj_list : AdjList) :
    (List.range adj_list.length).filter (fun i => decide (remIn adj_list [] i = 0))
      = seeds adj_list := by
  unfold seeds
  apply List.filter_congr
  intro i _
  rw [remIn_nil_eq_inDegree]

theorem inDegree_eq_zero_iff (adj_list : AdjList) (v : Nat) :
    inDegree adj_list v = 0 ↔ ∀ u, ¬ Edge adj_list u v := by
  rw [← remIn_nil_eq_inDegree, remIn_eq_zero_iff]
  simp

theorem mem_seeds_iff (adj_list : AdjList) (v : Nat) :
    v ∈ seeds adj_list ↔ v < adj_list.length ∧ inDegree adj_list v = 0 := by
  simp [seeds]

/-- What `BFSTopologicalSort` returns on a well-formed graph, with the position of the
seeds: the facts of `BFSTopologicalSort_core`, and the result starts with the seeds,
followed by vertices of non-zero in-degree. -/
theorem BFSTopologicalSort_seeded (adj_list : AdjList) (fuel : Nat)
    (hwf : WellFormed adj_list) (hfuel : adj_list.length ≤ fuel) :
    ∃ ans rest, BFSTopologicalSort fuel adj_list = .ok ans ∧ ans.Nodup ∧
      (∀ x ∈ ans, x < adj_list.length) ∧
      (∀ u v, Edge adj_list u v → v ∈ ans → Before ans u v) ∧
      ans = seeds adj_list ++ rest ∧ (∀ v ∈ rest, inDegree adj_list v ≠ 0) := by
  obtain ⟨ans, ind', hrun, hk, hord, t, ht⟩ :=
    BFSTopologicalSort_rule adj_list hwf
      (fun _ q ans => (∀ u v, Edge adj_list u v → v ∈ ans → Before ans u v) ∧
        ∃ t, ans ++ q = seeds adj_list ++ t)
      (fun _ => ⟨fun u v _ hv => by simp at hv, [], by rw [seeds_eq]; simp⟩)
      (by
        intro indegree curr q ans nbrs new indegree' hk hinv _ _ _ _ _
        obtain ⟨hord, t, ht⟩ := hinv
        refine ⟨?_, t ++ new, ?_⟩
        · intro u v huv hv
          rcases List.mem_append.mp hv with h | h
          · exact before_append_left _ (hord u v huv h)
          · have hvc : v = curr := by simpa using h
            subst hvc
            have hz := (hk.2.2.2.2 v (hk.2.2.2.1 v (by simp))).mp (by simp)
            exact before_append_singleton v ((remIn_eq_zero_iff adj_list ans v).mp hz u huv)
        · have hre : (ans ++ [curr]) ++ (q ++ new) = (ans ++ curr :: q) ++ new := by simp
          rw [hre, ht, List.append_assoc])
      fuel hfuel
  obtain ⟨_, _, knd, klt, _⟩ := hk
  simp only [List.append_nil] at knd klt ht
  refine ⟨ans, t, hrun, knd, klt, hord, ht, ?_⟩
  intro v hv hz
  have hvlt : v < adj_list.length := klt v (by rw [ht]; exact List.mem_append_right _ hv)
  have hvs : v ∈ seeds adj_list := (mem_seeds_iff adj_list v).mpr ⟨hvlt, hz⟩
  rw [ht] at knd
  exact (List.nodup_append.mp knd).2.2 hvs hv

theorem before_of_append {l1 l2 : List Nat} {a b : Nat} (ha : a ∈ l1) (hb : b ∈ l2) :
    Before (l1 ++ l2) a b := by
  obtain ⟨i, hi, hia⟩ := List.getElem_of_mem ha
  obtain ⟨j, hj, hjb⟩ := List.getElem_of_mem hb
  refine ⟨i, l1.length + j, by omega, ?_, ?_⟩
  · rw [List.getElem?_append_left hi, List.getElem?_eq_getElem hi, hia]
  · rw [List.getElem?_append_right (by omega)]
    simp [List.getElem?_eq_getElem hj, hjb]

/-- C17: seeding order of Kahn's algorithm: on every well-formed graph the sequence
returned by `BFSTopologicalSort` begins with all vertices of in-degree 0 in increasing
index order, and every returned vertex of non-zero in-degree comes after all of them; on
the DAG `0 → 1, 0 → 2, 1 → 3, 2 → 3` the result is `[0, 1, 2, 3]` or `[0, 2, 1, 3]`. -/
theorem BFSTopologicalSort_seeds_first (adj_list : AdjList) (fuel : Nat)
    (hwf : WellFormed adj_list) (hfuel : adj_list.length ≤ fuel) :
    (∃ ans rest, BFSTopologicalSort fuel adj_list = .ok ans ∧
      ans = (List.range adj_list.length).filter
        (fun v => decide (inDegree adj_list v = 0)) ++ rest ∧
      (∀ v ∈ rest, inDegree adj_list v ≠ 0) ∧
      (∀ a b, a < adj_list.length → inDegree adj_list a = 0 →
        b ∈ ans → inDegree adj_list b ≠ 0 → Before ans a b)) ∧
    (4 ≤ fuel →
      BFSTopologicalSort fuel [[1, 2], [3], [3], []] = .ok [0, 1, 2, 3] ∨
      BFSTopologicalSort fuel [[1, 2], [3], [3], []] = .ok [0, 2, 1, 3]) := by
  obtain ⟨ans, rest, hrun, _, _, _, hans, hrest⟩ :=
    BFSTopologicalSort_seeded adj_list fuel hwf hfuel
  refine ⟨⟨ans, rest, hrun, hans, hrest, ?_⟩, ?_⟩
  · intro a b ha haz hb hbz
    have has : a ∈ seeds adj_list := (mem_seeds_iff adj_list a).mpr ⟨ha, haz⟩
    rw [hans] at hb ⊢
    rcases List.mem_append.mp hb with h | h
    · exact absurd ((mem_seeds_iff adj_list b).mp h).2 hbz
    · exact before_of_append has h
  · intro h4
    obtain ⟨k, rfl⟩ : ∃ k, fuel = k + 4 := ⟨fuel - 4, by omega⟩
    left
    cases k <;> rfl

theorem BFSTopologicalSort_seeds_first_witness :
    WellFormed [[2], [2, 3], [3], [], []] ∧
    ((∃ ans rest, BFSTopologicalSort 5 [[2], [2, 3], [3], [], []] = .ok ans ∧
      ans = (List.range ([[2], [2, 3], [3], [], []] : AdjList).length).filter
        (fun v => decide (inDegree [[2], [2, 3], [3], [], []] v = 0)) ++ rest ∧
      (∀ v ∈ rest, inDegree [[2], [2, 3], [3], [], []] v ≠ 0) ∧
      (∀ a b, a < ([[2], [2, 3], [3], [], []] : AdjList).length →
        inDegree [[2], [2, 3], [3], [], []] a = 0 →
        b ∈ ans → inDegree [[2], [2, 3], [3], [], []] b ≠ 0 → Before ans a b)) ∧
    (4 ≤ 5 →
      BFSTopologicalSort 5 [[1, 2], [3], [3], []] = .ok [0, 1, 2, 3] ∨
      BFSTopologicalSort 5 [[1, 2], [3], [3], []] = .ok [0, 2, 1, 3])) :=
  ⟨by decide, BFSTopologicalSort_seeds_first [[2], [2, 3], [3], [], []] 5
    (by decide) (by decide)⟩

/-! ## Kahn's algorithm on an undirected graph (C19) -/

theorem edge_symm_of_symmetricCounts {adj_list : AdjList} (hwf : WellFormed adj_list)
    (hsym : SymmetricCounts adj_list) {u v : Nat} (h : Edge adj_list u v) :
    Edge adj_list v u := by
  have hu := edge_lt_left h
  have hv := edge_lt_right hwf h
  obtain ⟨nbrs, h1, h2⟩ := h
  have hc := hsym u hu v hv
  rw [h1, List.getElem?_eq_getElem hv] at hc
  simp only [Option.getD_some] at hc
  have hpos : 0 < nbrs.count v := List.count_pos_iff.mpr h2
  refine ⟨adj_list[v], List.getElem?_eq_getElem hv, ?_⟩
  apply List.count_pos_iff.mp
  omega

theorem seeds_eq_isolated {adj_list : AdjList} (hwf : WellFormed adj_list)
    (hsym : SymmetricCounts adj_list) :
    seeds adj_list
      = (List.range adj_list.length).filter (fun i => decide (adj_list[i]? = some [])) := by
  unfold seeds
  apply List.filter_congr
  intro i hi
  have hlt := List.mem_range.mp hi
  have hiff : inDegree adj_list i = 0 ↔ adj_list[i]? = some [] := by
    rw [inDegree_eq_zero_iff]
    constructor
    · intro h
      rw [List.getElem?_eq_getElem hlt]
      congr 1
      apply List.eq_nil_iff_forall_not_mem.mpr
      intro x hx
      exact h x (edge_symm_of_symmetricCounts hwf hsym
        ⟨adj_list[i], List.getElem?_eq_getElem hlt, hx⟩)
    · intro h u hu
      obtain ⟨nbrs, h1, h2⟩ := edge_symm_of_symmetricCounts hwf hsym hu
      rw [h] at h1
      cases h1
      simp at h2
  simp [hiff]

/-- C19: on an undirected graph as `main` builds it (well-formed, `j` in `adj_list[i]` as
often as `i` in `adj_list[j]`) `BFSTopologicalSort` returns exactly the isolated vertices,
those with an empty neighbour list, in increasing index order; it returns all `V` vertices
only when the graph has no edge at all. -/
theorem BFSTopologicalSort_undirected (adj_list : AdjList) (fuel : Nat)
    (hwf : WellFormed adj_list) (hsym : SymmetricCounts adj_list)
    (hfuel : adj_list.length ≤ fuel) :
    ∃ ans, BFSTopologicalSort fuel adj_list = .ok ans ∧
      ans = (List.range adj_list.length).filter (fun i => decide (adj_list[i]? = some [])) ∧
      (ans.length = adj_list.length ↔ ∀ i, i < adj_list.length → adj_list[i]? = some []) := by
  obtain ⟨ans, rest, hrun, hnd, _, hord, hans, hrest⟩ :=
    BFSTopologicalSort_seeded adj_list fuel hwf hfuel
  have hnil : rest = [] := by
    cases rest with
    | nil => rfl
    | cons x t =>
      exfalso
      have hxz := hrest x (List.mem_cons_self _ _)
      rw [Ne, inDegree_eq_zero_iff] at hxz
      push_neg at hxz
      obtain ⟨u, hux⟩ := hxz
      have hxans : x ∈ ans := by rw [hans]; simp
      obtain ⟨i, j, hij, hi, hj⟩ := hord u x hux hxans
      have hpos : ans[(seeds adj_list).length]? = some x := by
        rw [hans, List.getElem?_append_right (le_refl _)]
        simp
      have hjs : j = (seeds adj_list).length :=
        List.getElem?_inj (lt_of_getElem?_eq_some _ _ _ hj) hnd (hj.trans hpos.symm)
      have hus : u ∈ seeds adj_list := by
        rw [hans, List.getElem?_append_left (by omega)] at hi
        exact List.getElem?_mem hi
      have huz := ((mem_seeds_iff adj_list u).mp hus).2
      rw [inDegree_eq_zero_iff] at huz
      exact huz x (edge_symm_of_symmetricCounts hwf hsym hux)
  rw [hnil, List.append_nil, seeds_eq_isolated hwf hsym] at hans
  refine ⟨ans, hrun, hans, ?_⟩
  rw [hans]
  constructor
  · intro hlen i hi
    have h1 : ((List.range adj_list.length).filter
        (fun i => decide (adj_list[i]? = some []))).length = (List.range adj_list.length).length := by
      rw [hlen, List.length_range]
    have := List.filter_length_eq_length.mp h1 i (List.mem_range.mpr hi)
    simpa using this
  · intro h
    have h1 : ((List.range adj_list.length).filter
        (fun i => decide (adj_list[i]? = some []))).length = (List.range adj_list.length).length := by
      apply List.filter_length_eq_length.mpr
      intro i hi
      simpa using h i (List.mem_range.mp hi)
    rw [h1, List.length_range]

theorem BFSTopologicalSort_undirected_witness :
    WellFormed [[1, 2], [0], [0, 4, 4], [], [2, 2], []] ∧
    SymmetricCounts [[1, 2], [0], [0, 4, 4], [], [2, 2], []] ∧
    ∃ ans, BFSTopologicalSort 6 [[1, 2], [0], [0, 4, 4], [], [2, 2], []] = .ok ans ∧
      ans = (List.range ([[1, 2], [0], [0, 4, 4], [], [2, 2], []] : AdjList).length).filter
        (fun i => decide (([[1, 2], [0], [0, 4, 4], [], [2, 2], []] : AdjList)[i]? = some [])) ∧
      (ans.length = ([[1, 2], [0], [0, 4, 4], [], [2, 2], []] : AdjList).length ↔
        ∀ i, i < ([[1, 2], [0], [0, 4, 4], [], [2, 2], []] : AdjList).length →
          ([[1, 2], [0], [0, 4, 4], [], [2, 2], []] : AdjList)[i]? = some []) :=
  ⟨by decide, by decide,
    BFSTopologicalSort_undirected [[1, 2], [0], [0, 4, 4], [], [2, 2], []] 6
      (by decide) (by decide) (by decide)⟩

/-! ## Kahn's algorithm: layer order (C20) -/

theorem isLevel_unique {adj_list : AdjList} {v d1 d2 : Nat}
    (h1 : IsLevel adj_list v d1) (h2 : IsLevel adj_list v d2) : d1 = d2 := by
  rcases Nat.lt_trichotomy d1 d2 with h | h | h
  · exact absurd h2.1 (h1.2 d2 h)
  · exact h
  · exact absurd h1.1 (h2.2 d1 h)

theorem isLevel_zero_of_seed {adj_list : AdjList} {v : Nat}
    (h : remIn adj_list [] v = 0) : IsLevel adj_list v 0 := by
  refine ⟨⟨v, rfl⟩, ?_⟩
  rintro k hk ⟨s, hw⟩
  obtain ⟨k', rfl⟩ : ∃ k', k = k' + 1 := ⟨k - 1, by omega⟩
  obtain ⟨w, _, hwv⟩ := hw
  have := (remIn_eq_zero_iff adj_list [] v).mp h w hwv
  simp at this

theorem KahnLevelInv_step (adj_list : AdjList)
    (curr : Nat) (q ans nbrs new : List Nat)
    (hinv : KahnLevelInv adj_list (curr :: q) ans)
    (hnb : adj_list[curr]? = some nbrs)
    (hmem : ∀ x, x ∈ new ↔ x ∈ nbrs ∧ remIn adj_list (ans ++ [curr]) x = 0) :
    KahnLevelInv adj_list (q ++ new) (ans ++ [curr]) := by
  obtain ⟨ipw, d0, p1, p2, hq, hp1, hp2, hc⟩ := hinv
  have hnorm : ∃ d q1 q2, q = q1 ++ q2 ∧ IsLevel adj_list curr d ∧
      (∀ y ∈ q1, IsLevel adj_list y d) ∧ (∀ y ∈ q2, IsLevel adj_list y (d + 1)) ∧
      (∀ y ∈ ans, ∃ k, k ≤ d ∧ IsLevel adj_list y k) := by
    cases p1 with
    | nil =>
      simp only [List.nil_append] at hq
      subst hq
      refine ⟨d0 + 1, q, [], by simp, hp2 curr (List.mem_cons_self _ _),
        fun y hy => hp2 y (List.mem_cons_of_mem _ hy), by simp, ?_⟩
      intro y hy
      obtain ⟨k, hk, hyk⟩ := hc y hy
      exact ⟨k, by omega, hyk⟩
    | cons c p1 =>
      simp only [List.cons_append, List.cons.injEq] at hq
      obtain ⟨hc1, hq⟩ := hq
      subst hc1
      exact ⟨d0, p1, p2, hq, hp1 curr (List.mem_cons_self _ _),
        fun y hy => hp1 y (List.mem_cons_of_mem _ hy), hp2, hc⟩
  obtain ⟨d, q1, q2, hq', hcurr, h1, h2, hc'⟩ := hnorm
  have hc'' : ∀ y ∈ ans ++ [curr], ∃ k, k ≤ d ∧ IsLevel adj_list y k := by
    intro y hy
    rcases List.mem_append.mp hy with h | h
    · exact hc' y h
    · have hyc : y = curr := by simpa using h
      subst hyc
      exact ⟨d, le_refl _, hcurr⟩
  have hnew : ∀ x ∈ new, IsLevel adj_list x (d + 1) := by
    intro x hx
    obtain ⟨hxn, hxz⟩ := (hmem x).mp hx
    obtain ⟨s, hs⟩ := hcurr.1
    refine ⟨⟨s, curr, hs, nbrs, hnb, hxn⟩, ?_⟩
    rintro k hk ⟨s', hw⟩
    obtain ⟨k', rfl⟩ : ∃ k', k = k' + 1 := ⟨k - 1, by omega⟩
    obtain ⟨w, hw1, hwx⟩ := hw
    obtain ⟨lw, hlw, hwl⟩ := hc'' w ((remIn_eq_zero_iff adj_list _ x).mp hxz w hwx)
    exact hwl.2 k' (by omega) ⟨s', hw1⟩
  refine ⟨?_, d, q1, q2 ++ new, by rw [hq']; simp, h1, ?_, hc''⟩
  · rw [List.pairwise_append]
    refine ⟨ipw, by simp, ?_⟩
    intro a ha b hb la lb hla hlb
    have hbc : b = curr := by simpa using hb
    subst hbc
    obtain ⟨k, hk, hak⟩ := hc' a ha
    rw [isLevel_unique hla hak, isLevel_unique hlb hcurr]
    exact hk
  · intro y hy
    rcases List.mem_append.mp hy with h | h
    · exact h2 y h
    · exact hnew y h

/-- C20: layer order of Kahn's algorithm: on a well-formed directed acyclic graph the
sequence returned by `BFSTopologicalSort` is ordered by non-decreasing level, the level of
a vertex being the number of edges of the longest path that ends at it: a vertex of
smaller level appears before every vertex of larger level. -/
theorem BFSTopologicalSort_level_order (adj_list : AdjList) (fuel : Nat)
    (hwf : WellFormed adj_list) (hdag : Acyclic adj_list) (hfuel : adj_list.length ≤ fuel) :
    ∃ ans, BFSTopologicalSort fuel adj_list = .ok ans ∧
      ∀ a b la lb, a < adj_list.length → b < adj_list.length →
        IsLevel adj_list a la → IsLevel adj_list b lb → la < lb → Before ans a b := by
  obtain ⟨ans, ind', hrun, hk, ipw, _⟩ :=
    BFSTopologicalSort_rule adj_list hwf (fun _ q ans => KahnLevelInv adj_list q ans)
      (fun _ => ⟨List.Pairwise.nil, 0, _, [], (List.append_nil _).symm,
        fun y hy => isLevel_zero_of_seed (by simpa using (List.mem_filter.mp hy).2),
        by simp, by simp⟩)
      (fun _ curr q ans nbrs new _ _ hinv hnb _ _ hmem _ =>
        KahnLevelInv_step adj_list curr q ans nbrs new hinv hnb hmem)
      fuel hfuel
  obtain ⟨_, _, _, _, kzero⟩ := hk
  simp only [List.append_nil] at kzero
  have hall := kahn_complete hdag
    (fun v hv => by rw [kzero v hv, remIn_eq_zero_iff])
  refine ⟨ans, hrun, ?_⟩
  intro a b la lb ha hb hla hlb hlt
  refine before_of_pairwise ipw (hall a ha) (hall b hb) ?_ ?_
  · intro hab
    subst hab
    have := isLevel_unique hla hlb
    omega
  · intro h
    have := h lb la hlb hla
    omega

theorem BFSTopologicalSort_level_order_witness :
    WellFormed [[3], [2], [3], []] ∧ Acyclic [[3], [2], [3], []] ∧
    ∃ ans, BFSTopologicalSort 4 [[3], [2], [3], []] = .ok ans ∧
      ∀ a b la lb, a < ([[3], [2], [3], []] : AdjList).length →
        b < ([[3], [2], [3], []] : AdjList).length →
        IsLevel [[3], [2], [3], []] a la → IsLevel [[3], [2], [3], []] b lb →
        la < lb → Before ans a b :=
  ⟨by decide, acyclic_of_increasing _ (by decide),
    BFSTopologicalSort_level_order [[3], [2], [3], []] 4 (by decide)
      (acyclic_of_increasing _ (by decide)) (by decide)⟩

/-! ## Reading the adjacency list (C11) -/

theorem uncheckedIndex_ok {i : Int} {n : Nat} (h0 : 0 ≤ i) (h1 : i < n) :
    uncheckedIndex i n = .ok i.toNat := by
  simp [uncheckedIndex, h0, h1]

theorem uncheckedIndex_undefined {i : Int} {n : Nat} (h : ¬ (0 ≤ i ∧ i < n)) :
    uncheckedIndex i n = .error .undefinedBehaviour := by
  simp only [uncheckedIndex, if_neg h]

theorem pushBack_ok (adj_list : AdjList) (i x : Int) (h0 : 0 ≤ i)
    (h1 : i < adj_list.length) :
    pushBack adj_list i x
      = .ok (adj_list.set i.toNat (((adj_list[i.toNat]?).getD []) ++ [x.toNat])) := by
  have hlt : i.toNat < adj_list.length := by omega
  simp only [pushBack, uncheckedIndex_ok h0 h1, List.getElem?_eq_getElem hlt, Option.getD_some]

theorem pushBack_undefined (adj_list : AdjList) (i x : Int)
    (h : ¬ (0 ≤ i ∧ i < adj_list.length)) :
    pushBack adj_list i x = .error .undefinedBehaviour := by
  simp only [pushBack, uncheckedIndex_undefined h]

theorem edge_set_append (adj_list : AdjList) (r x : Nat) (hr : r < adj_list.length)
    (a b : Nat) :
    Edge (adj_list.set r (((adj_list[r]?).getD []) ++ [x])) a b ↔
      Edge adj_list a b ∨ (a = r ∧ b = x) := by
  unfold Edge
  rw [List.getElem?_set]
  by_cases hra : r = a
  · subst hra
    simp only [if_true, if_pos hr, List.getElem?_eq_getElem hr, Option.getD_some]
    constructor
    · rintro ⟨nbrs, h1, h2⟩
      cases h1
      rcases List.mem_append.mp h2 with h | h
      · exact Or.inl ⟨_, rfl, h⟩
      · exact Or.inr ⟨trivial, by simpa using h⟩
    · rintro (⟨nbrs, h1, h2⟩ | ⟨_, h⟩)
      · cases h1
        exact ⟨_, rfl, List.mem_append_left _ h2⟩
      · exact ⟨_, rfl, by simp [h]⟩
  · simp only [if_neg hra]
    constructor
    · exact fun h => Or.inl h
    · rintro (h | ⟨h, _⟩)
      · exact h
      · exact absurd h.symm hra

theorem wellFormed_of_edge {adj_list : AdjList}
    (h : ∀ u v, Edge adj_list u v → v < adj_list.length) : WellFormed adj_list := by
  intro nbrs hn x hx
  obtain ⟨u, hu, hnu⟩ := List.getElem_of_mem hn
  exact h u x ⟨nbrs, by rw [List.getElem?_eq_getElem hu, hnu], hx⟩

/-- One pass of the loop of lines 47-56 on a pair in range. -/
theorem readList_step (V : Nat) (adj_list : AdjList) (hlen : adj_list.length = V)
    (source dest : Int) (hin : InRange V (source, dest)) :
    ∃ adj1 adj2, pushBack adj_list (source - 1) (dest - 1) = .ok adj1 ∧
      pushBack adj1 (dest - 1) (source - 1) = .ok adj2 ∧ adj2.length = V ∧
      ∀ i j : Nat, Edge adj2 i j ↔
        Edge adj_list i j ∨ ((i : Int) + 1 = source ∧ (j : Int) + 1 = dest) ∨
          ((j : Int) + 1 = source ∧ (i : Int) + 1 = dest) := by
  obtain ⟨h1, h2, h3, h4⟩ := hin
  simp only at h1 h2 h3 h4
  have hs0 : (0 : Int) ≤ source - 1 := by omega
  have hs1 : source - 1 < (adj_list.length : Int) := by omega
  have hsl : (source - 1).toNat < adj_list.length := by omega
  have e1 := pushBack_ok adj_list (source - 1) (dest - 1) hs0 hs1
  have hlen1 : (adj_list.set (source - 1).toNat
      (((adj_list[(source - 1).toNat]?).getD []) ++ [(dest - 1).toNat])).length = V := by
    simpa using hlen
  have hd0 : (0 : Int) ≤ dest - 1 := by omega
  have hd1 : dest - 1 < ((adj_list.set (source - 1).toNat
      (((adj_list[(source - 1).toNat]?).getD []) ++ [(dest - 1).toNat])).length : Int) := by
    rw [hlen1]; omega
  have hdl : (dest - 1).toNat < (adj_list.set (source - 1).toNat
      (((adj_list[(source - 1).toNat]?).getD []) ++ [(dest - 1).toNat])).length := by
    rw [hlen1]; omega
  have e2 := pushBack_ok _ (dest - 1) (source - 1) hd0 hd1
  refine ⟨_, _, e1, e2, by simpa using hlen1, ?_⟩
  intro i j
  rw [edge_set_append _ _ _ hdl, edge_set_append _ _ _ hsl]
  constructor
  · rintro ((h | ⟨ha, hb⟩) | ⟨ha, hb⟩)
    · exact Or.inl h
    · exact Or.inr (Or.inl ⟨by omega, by omega⟩)
    · exact Or.inr (Or.inr ⟨by omega, by omega⟩)
  · rintro (h | ⟨ha, hb⟩ | ⟨ha, hb⟩)
    · exact Or.inl (Or.inl h)
    · exact Or.inl (Or.inr ⟨by omega, by omega⟩)
    · exact Or.inr ⟨by omega, by omega⟩

/-- The loop of lines 47-56 on pairs in range: it succeeds, keeps the length, and adds
exactly the edges `s-1 → d-1` and `d-1 → s-1` of the pairs. -/
theorem readList_spec (V : Nat) (pairs : List (Int × Int)) :
    ∀ (adj_list : AdjList), adj_list.length = V → (∀ p ∈ pairs, InRange V p) →
    ∃ adj', readList pairs adj_list = .ok adj' ∧ adj'.length = V ∧
      ∀ i j : Nat, Edge adj' i j ↔
        Edge adj_list i j ∨ ((i : Int) + 1, (j : Int) + 1) ∈ pairs ∨
          ((j : Int) + 1, (i : Int) + 1) ∈ pairs := by
  induction pairs with
  | nil =>
    intro adj_list hlen _
    exact ⟨adj_list, rfl, hlen, by simp⟩
  | cons p rest ih =>
    intro adj_list hlen hin
    obtain ⟨source, dest⟩ := p
    obtain ⟨adj1, adj2, e1, e2, hlen2, hedge⟩ :=
      readList_step V adj_list hlen source dest (hin _ (List.mem_cons_self _ _))
    obtain ⟨adj', hrun, hlen', hedge'⟩ :=
      ih adj2 hlen2 (fun q hq => hin q (List.mem_cons_of_mem _ hq))
    refine ⟨adj', by simp only [readList, e1, e2, hrun], hlen', ?_⟩
    intro i j
    rw [hedge' i j, hedge i j]
    simp only [List.mem_cons, Prod.mk.injEq]
    tauto

/-- The loop of lines 47-56 leaves its vector as soon as it meets a pair out of range. -/
theorem readList_undefined (V : Nat) (pairs : List (Int × Int)) :
    ∀ (adj_list : AdjList), adj_list.length = V → (∃ p ∈ pairs, ¬ InRange V p) →
    readList pairs adj_list = .error .undefinedBehaviour := by
  induction pairs with
  | nil => intro _ _ h; simp at h
  | cons p rest ih =>
    intro adj_list hlen hbad
    obtain ⟨source, dest⟩ := p
    by_cases hin : InRange V (source, dest)
    · obtain ⟨adj1, adj2, e1, e2, hlen2, _⟩ := readList_step V adj_list hlen source dest hin
      have hbad' : ∃ q ∈ rest, ¬ InRange V q := by
        obtain ⟨q, hq, hqn⟩ := hbad
        rcases List.mem_cons.mp hq with h | h
        · rw [h] at hqn; exact absurd hin hqn
        · exact ⟨q, h, hqn⟩
      simp only [readList, e1, e2]
      exact ih adj2 hlen2 hbad'
    · unfold InRange at hin
      simp only at hin
      by_cases hs : 0 ≤ source - 1 ∧ source - 1 < (adj_list.length : Int)
      · have e1 := pushBack_ok adj_list (source - 1) (dest - 1) hs.1 hs.2
        have e2 := pushBack_undefined (adj_list.set (source - 1).toNat
          (((adj_list[(source - 1).toNat]?).getD []) ++ [(dest - 1).toNat])) (dest - 1)
          (source - 1) (by
            rw [List.length_set, hlen]
            rw [hlen] at hs
            omega)
        simp only [readList, e1, e2]
      · simp only [readList, pushBack_undefined adj_list (source - 1) (dest - 1) hs]

/-- C11: construction of the adjacency list as in `main`: for every `V` and every list of
pairs of 1-based identifiers in `[1, V]`, appending `d-1` to list `s-1` and `s-1` to list
`d-1` for each pair `(s, d)` yields a well-formed adjacency list of length `V` that is
symmetric, in which `j` occurs in list `i` exactly when `(i+1, j+1)` or `(j+1, i+1)` is
among the pairs. -/
theorem readList_symmetric (V : Nat) (pairs : List (Int × Int))
    (hin : ∀ p ∈ pairs, InRange V p) :
    ∃ adj_list, readList pairs (List.replicate V []) = .ok adj_list ∧
      adj_list.length = V ∧ WellFormed adj_list ∧
      (∀ i j, Edge adj_list i j ↔ Edge adj_list j i) ∧
      (∀ i j : Nat, Edge adj_list i j ↔
        ((i : Int) + 1, (j : Int) + 1) ∈ pairs ∨ ((j : Int) + 1, (i : Int) + 1) ∈ pairs) := by
  obtain ⟨adj, hrun, hlen, hedge⟩ :=
    readList_spec V pairs (List.replicate V []) (by simp) hin
  have hempty : ∀ i j : Nat, ¬ Edge (List.replicate V ([] : List Nat)) i j := by
    rintro i j ⟨nbrs, h1, h2⟩
    rw [List.getElem?_replicate] at h1
    split at h1
    · cases h1; simp at h2
    · cases h1
  have hchar : ∀ i j : Nat, Edge adj i j ↔
      ((i : Int) + 1, (j : Int) + 1) ∈ pairs ∨ ((j : Int) + 1, (i : Int) + 1) ∈ pairs := by
    intro i j
    rw [hedge i j]
    constructor
    · rintro (h | h)
      · exact absurd h (hempty i j)
      · exact h
    · exact fun h => Or.inr h
  refine ⟨adj, hrun, hlen, ?_, ?_, hchar⟩
  · apply wellFormed_of_edge
    intro u v huv
    rw [hlen]
    rcases (hchar u v).mp huv with h | h
    · have := (hin _ h).2.2.2
      simp only at this
      omega
    · have := (hin _ h).2.1
      simp only at this
      omega
  · intro i j
    rw [hchar i j, hchar j i]
    exact Or.comm

theorem readList_symmetric_witness :
    (∀ p ∈ [((1 : Int), (2 : Int)), (2, 3), (3, 4), (2, 2), (1, 2)], InRange 4 p) ∧
    ∃ adj_list, readList [(1, 2), (2, 3), (3, 4), (2, 2), (1, 2)] (List.replicate 4 [])
        = .ok adj_list ∧
      adj_list.length = 4 ∧ WellFormed adj_list ∧
      (∀ i j, Edge adj_list i j ↔ Edge adj_list j i) ∧
      (∀ i j : Nat, Edge adj_list i j ↔
        ((i : Int) + 1, (j : Int) + 1) ∈ [((1 : Int), (2 : Int)), (2, 3), (3, 4), (2, 2), (1, 2)] ∨
        ((j : Int) + 1, (i : Int) + 1) ∈ [((1 : Int), (2 : Int)), (2, 3), (3, 4), (2, 2), (1, 2)]) :=
  ⟨by decide, readList_symmetric 4 [(1, 2), (2, 3), (3, 4), (2, 2), (1, 2)] (by decide)⟩

/-! ## Reading the adjacency matrix (C12, C13) -/

theorem square_row {V : Nat} {adj_matrix : AdjMatrix} (hsq : Square V adj_matrix)
    {r : Nat} (hr : r < V) :
    ∃ row, adj_matrix[r]? = some row ∧ row.length = V := by
  have hlt : r < adj_matrix.length := by rw [hsq.1]; exact hr
  exact ⟨adj_matrix[r], List.getElem?_eq_getElem hlt, hsq.2 _ (List.getElem_mem _)⟩

theorem setCell_ok {V : Nat} {adj_matrix : AdjMatrix} (hsq : Square V adj_matrix)
    (i j : Int) (hi0 : 0 ≤ i) (hi1 : i < V) (hj0 : 0 ≤ j) (hj1 : j < V) :
    ∃ m', setCell adj_matrix i j = .ok m' ∧ Square V m' ∧
      ∀ a b : Nat, Cell m' a b ↔ Cell adj_matrix a b ∨ (a = i.toNat ∧ b = j.toNat) := by
  obtain ⟨row, hrow, hrl⟩ := square_row hsq (r := i.toNat) (by omega)
  have hr : i.toNat < adj_matrix.length := lt_of_getElem?_eq_some _ _ _ hrow
  refine ⟨adj_matrix.set i.toNat (row.set j.toNat true), ?_, ⟨?_, ?_⟩, ?_⟩
  · have c1 : uncheckedIndex i adj_matrix.length = .ok i.toNat :=
      uncheckedIndex_ok hi0 (by rw [hsq.1]; exact hi1)
    have c2 : uncheckedIndex j row.length = .ok j.toNat :=
      uncheckedIndex_ok hj0 (by rw [hrl]; exact hj1)
    simp only [setCell, c1, hrow, c2]
  · simpa using hsq.1
  · intro x hx
    rcases List.mem_or_eq_of_mem_set hx with h | h
    · exact hsq.2 x h
    · rw [h]; simpa using hrl
  · intro a b
    unfold Cell
    rw [List.getElem?_set]
    by_cases hra : i.toNat = a
    · subst hra
      simp only [if_true, if_pos hr, hrow]
      constructor
      · rintro ⟨x, h1, h2⟩
        cases h1
        rcases (marked_set_iff row j.toNat b).mp h2 with ⟨h, _⟩ | h
        · exact Or.inr ⟨trivial, h⟩
        · exact Or.inl ⟨_, rfl, h⟩
      · rintro (⟨x, h1, h2⟩ | ⟨_, h⟩)
        · cases h1
          exact ⟨_, rfl, (marked_set_iff row j.toNat b).mpr (Or.inr h2)⟩
        · exact ⟨_, rfl, (marked_set_iff row j.toNat b).mpr
            (Or.inl ⟨h, by rw [hrl]; omega⟩)⟩
    · simp only [if_neg hra]
      constructor
      · exact fun h => Or.inl h
      · rintro (h | ⟨h, _⟩)
        · exact h
        · exact absurd h.symm hra

theorem setCell_undefined {V : Nat} {adj_matrix : AdjMatrix} (hsq : Square V adj_matrix)
    (i j : Int) (h : ¬ (0 ≤ i ∧ i < V ∧ 0 ≤ j ∧ j < V)) :
    setCell adj_matrix i j = .error .undefinedBehaviour := by
  by_cases hi : 0 ≤ i ∧ i < (adj_matrix.length : Int)
  · obtain ⟨row, hrow, hrl⟩ := square_row hsq (r := i.toNat) (by rw [hsq.1] at hi; omega)
    have c2 : uncheckedIndex j row.length = .error .undefinedBehaviour :=
      uncheckedIndex_undefined (by rw [hrl]; rw [hsq.1] at hi; omega)
    simp only [setCell, uncheckedIndex_ok hi.1 hi.2, hrow, c2]
  · simp only [setCell, uncheckedIndex_undefined hi]

/-- One pass of the loop of lines 34-44 on a pair in range. -/
theorem readMatrix_step (V : Nat) (adj_matrix : AdjMatrix) (hsq : Square V adj_matrix)
    (source dest : Int) (hin : InRange V (source, dest)) :
    ∃ m1 m2, setCell adj_matrix (source - 1) (dest - 1) = .ok m1 ∧
      setCell m1 (dest - 1) (source - 1) = .ok m2 ∧ Square V m2 ∧
      ∀ i j : Nat, Cell m2 i j ↔
        Cell adj_matrix i j ∨ ((i : Int) + 1 = source ∧ (j : Int) + 1 = dest) ∨
          ((j : Int) + 1 = source ∧ (i : Int) + 1 = dest) := by
  obtain ⟨h1, h2, h3, h4⟩ := hin
  simp only at h1 h2 h3 h4
  obtain ⟨m1, e1, hsq1, hc1⟩ := setCell_ok hsq (source - 1) (dest - 1)
    (by omega) (by omega) (by omega) (by omega)
  obtain ⟨m2, e2, hsq2, hc2⟩ := setCell_ok hsq1 (dest - 1) (source - 1)
    (by omega) (by omega) (by omega) (by omega)
  refine ⟨m1, m2, e1, e2, hsq2, ?_⟩
  intro i j
  rw [hc2 i j, hc1 i j]
  constructor
  · rintro ((h | ⟨ha, hb⟩) | ⟨ha, hb⟩)
    · exact Or.inl h
    · exact Or.inr (Or.inl ⟨by omega, by omega⟩)
    · exact Or.inr (Or.inr ⟨by omega, by omega⟩)
  · rintro (h | ⟨ha, hb⟩ | ⟨ha, hb⟩)
    · exact Or.inl (Or.inl h)
    · exact Or.inl (Or.inr ⟨by omega, by omega⟩)
    · exact Or.inr ⟨by omega, by omega⟩

/-- The loop of lines 34-44 on pairs in range: it succeeds, keeps the shape, and sets
exactly the cells `[s-1][d-1]` and `[d-1][s-1]` of the pairs. -/
theorem readMatrix_spec (V : Nat) (pairs : List (Int × Int)) :
    ∀ (adj_matrix : AdjMatrix), Square V adj_matrix → (∀ p ∈ pairs, InRange V p) →
    ∃ m', readMatrix pairs adj_matrix = .ok m' ∧ Square V m' ∧
      ∀ i j : Nat, Cell m' i j ↔
        Cell adj_matrix i j ∨ ((i : Int) + 1, (j : Int) + 1) ∈ pairs ∨
          ((j : Int) + 1, (i : Int) + 1) ∈ pairs := by
  induction pairs with
  | nil =>
    intro adj_matrix hsq _
    exact ⟨adj_matrix, rfl, hsq, by simp⟩
  | cons p rest ih =>
    intro adj_matrix hsq hin
    obtain ⟨source, dest⟩ := p
    obtain ⟨m1, m2, e1, e2, hsq2, hcell⟩ :=
      readMatrix_step V adj_matrix hsq source dest (hin _ (List.mem_cons_self _ _))
    obtain ⟨m', hrun, hsq', hcell'⟩ :=
      ih m2 hsq2 (fun q hq => hin q (List.mem_cons_of_mem _ hq))
    refine ⟨m', by simp only [readMatrix, e1, e2, hrun], hsq', ?_⟩
    intro i j
    rw [hcell' i j, hcell i j]
    simp only [List.mem_cons, Prod.mk.injEq]
    tauto

/-- The loop of lines 34-44 leaves its vector as soon as it meets a pair out of range. -/
theorem readMatrix_undefined (V : Nat) (pairs : List (Int × Int)) :
    ∀ (adj_matrix : AdjMatrix), Square V adj_matrix → (∃ p ∈ pairs, ¬ InRange V p) →
    readMatrix pairs adj_matrix = .error .undefinedBehaviour := by
  induction pairs with
  | nil => intro _ _ h; simp at h
  | cons p rest ih =>
    intro adj_matrix hsq hbad
    obtain ⟨source, dest⟩ := p
    by_cases hin : InRange V (source, dest)
    · obtain ⟨m1, m2, e1, e2, hsq2, _⟩ := readMatrix_step V adj_matrix hsq source dest hin
      have hbad' : ∃ q ∈ rest, ¬ InRange V q := by
        obtain ⟨q, hq, hqn⟩ := hbad
        rcases List.mem_cons.mp hq with h | h
        · rw [h] at hqn; exact absurd hin hqn
        · exact ⟨q, h, hqn⟩
      simp only [readMatrix, e1, e2]
      exact ih m2 hsq2 hbad'
    · unfold InRange at hin
      simp only at hin
      have e1 := setCell_undefined hsq (source - 1) (dest - 1) (by omega)
      simp only [readMatrix, e1]

theorem square_replicate (V : Nat) : Square V (List.replicate V (List.replicate V false)) := by
  refine ⟨by simp, ?_⟩
  intro row hrow
  rw [(List.mem_replicate.mp hrow).2]
  simp

theorem cell_replicate (V i j : Nat) :
    ¬ Cell (List.replicate V (List.replicate V false)) i j := by
  rintro ⟨row, h1, h2⟩
  have hrow : row = List.replicate V false := (List.mem_replicate.mp (List.getElem?_mem h1)).2
  rw [hrow] at h2
  exact replicate_false_not_marked V j h2

theorem edge_replicate_nil (V i j : Nat) : ¬ Edge (List.replicate V ([] : List Nat)) i j := by
  rintro ⟨nbrs, h1, h2⟩
  have : nbrs = [] := (List.mem_replicate.mp (List.getElem?_mem h1)).2
  rw [this] at h2
  simp at h2

/-- The two outcomes of the construction of `main`: an access outside a vector, which is
undefined behaviour, exactly when some pair of either batch holds an identifier outside
`[1, V]`, and both structures built exactly when every identifier is in `[1, V]`. -/
theorem readGraph_outcome (V : Nat) (matrixPairs listPairs : List (Int × Int)) :
    (readGraph V matrixPairs listPairs = .error .undefinedBehaviour ↔
      ∃ p ∈ matrixPairs ++ listPairs, ¬ InRange V p) ∧
    ((∃ r, readGraph V matrixPairs listPairs = .ok r) ↔
      ∀ p ∈ matrixPairs ++ listPairs, InRange V p) := by
  by_cases hm : ∀ p ∈ matrixPairs, InRange V p
  · obtain ⟨m, hmrun, _, _⟩ := readMatrix_spec V matrixPairs _ (square_replicate V) hm
    by_cases hl : ∀ p ∈ listPairs, InRange V p
    · obtain ⟨a, harun, _, _⟩ := readList_spec V listPairs (List.replicate V []) (by simp) hl
      have hall : ∀ p ∈ matrixPairs ++ listPairs, InRange V p := by
        intro p hp
        rcases List.mem_append.mp hp with h | h
        · exact hm p h
        · exact hl p h
      have hrun : readGraph V matrixPairs listPairs = .ok (m, a) := by
        simp only [readGraph, hmrun, harun]
      refine ⟨⟨fun h => ?_, fun ⟨p, hp, hn⟩ => absurd (hall p hp) hn⟩,
        ⟨fun _ => hall, fun _ => ⟨_, hrun⟩⟩⟩
      rw [hrun] at h
      cases h
    · push_neg at hl
      have hrun : readGraph V matrixPairs listPairs = .error .undefinedBehaviour := by
        simp only [readGraph, hmrun,
          readList_undefined V listPairs (List.replicate V []) (by simp) hl]
      obtain ⟨p, hp, hn⟩ := hl
      refine ⟨⟨fun _ => ⟨p, List.mem_append_right _ hp, hn⟩, fun _ => hrun⟩,
        ⟨fun ⟨r, hr⟩ => ?_, fun h => absurd (h p (List.mem_append_right _ hp)) hn⟩⟩
      rw [hrun] at hr
      cases hr
  · push_neg at hm
    have hrun : readGraph V matrixPairs listPairs = .error .undefinedBehaviour := by
      simp only [readGraph, readMatrix_undefined V matrixPairs _ (square_replicate V) hm]
    obtain ⟨p, hp, hn⟩ := hm
    refine ⟨⟨fun _ => ⟨p, List.mem_append_left _ hp, hn⟩, fun _ => hrun⟩,
      ⟨fun ⟨r, hr⟩ => ?_, fun h => absurd (h p (List.mem_append_left _ hp)) hn⟩⟩
    rw [hrun] at hr
    cases hr

/-- C12 (counterexample): on the input `1 14, 3 4, 5 6, 7 8, 9 10` for both batches, with
`V = 10` as in `main`, the identifier 14 is outside `[1, 10]`, yet the construction does not
end in an index-out-of-bounds error: line 41 writes `adj_matrix[0][13]` with the unchecked
`operator[]`, which is undefined behaviour and raises nothing. -/
theorem readGraph_no_index_error :
    ¬ (readGraph 10 [(1, 14), (3, 4), (5, 6), (7, 8), (9, 10)]
          [(1, 14), (3, 4), (5, 6), (7, 8), (9, 10)] = .error .indexOutOfRange ↔
        ∃ p ∈ [((1 : Int), (14 : Int)), (3, 4), (5, 6), (7, 8), (9, 10)]
            ++ [((1 : Int), (14 : Int)), (3, 4), (5, 6), (7, 8), (9, 10)],
          ¬ InRange 10 p) := by
  intro hiff
  have hrun : readGraph 10 [(1, 14), (3, 4), (5, 6), (7, 8), (9, 10)]
      [(1, 14), (3, 4), (5, 6), (7, 8), (9, 10)] = .error .undefinedBehaviour := rfl
  have herr := hiff.mpr ⟨(1, 14), by simp, by decide⟩
  rw [hrun] at herr
  cases herr

/-- C12 (amended): the construction of `main` validates nothing and has no
index-out-of-bounds error.  It reaches an unchecked access outside a vector, whose
behaviour is undefined, exactly when some input pair holds an identifier outside `[1, V]`
(the identifier 0, which becomes index -1, included); it builds both the matrix and the
adjacency list exactly when every identifier is in `[1, V]`. -/
theorem readGraph_undefined_iff (V : Nat) (matrixPairs listPairs : List (Int × Int)) :
    (readGraph V matrixPairs listPairs = .error .undefinedBehaviour ↔
      ∃ p ∈ matrixPairs ++ listPairs, ¬ InRange V p) ∧
    ((∃ r, readGraph V matrixPairs listPairs = .ok r) ↔
      ∀ p ∈ matrixPairs ++ listPairs, InRange V p) ∧
    readGraph V matrixPairs listPairs ≠ .error .indexOutOfRange := by
  obtain ⟨hundef, hok⟩ := readGraph_outcome V matrixPairs listPairs
  refine ⟨hundef, hok, ?_⟩
  intro herr
  by_cases hall : ∀ p ∈ matrixPairs ++ listPairs, InRange V p
  · obtain ⟨r, hr⟩ := hok.mpr hall
    rw [hr] at herr
    cases herr
  · push_neg at hall
    rw [hundef.mpr hall] at herr
    cases herr

/-- C13: when the matrix and the list are built as in `main` from the same list of pairs
in range, the matrix is a `V × V` grid that is symmetric and agrees with the list:
`adj_matrix[i][j]` is true exactly when `j` occurs in `adj_list[i]`, which is exactly when
`(i+1, j+1)` or `(j+1, i+1)` is among the pairs. -/
theorem readGraph_matrix_agrees (V : Nat) (pairs : List (Int × Int))
    (hin : ∀ p ∈ pairs, InRange V p) :
    ∃ adj_matrix adj_list, readGraph V pairs pairs = .ok (adj_matrix, adj_list) ∧
      Square V adj_matrix ∧
      (∀ i j, i < V → j < V → (Cell adj_matrix i j ↔ Cell adj_matrix j i)) ∧
      (∀ i j, i < V → j < V → (Cell adj_matrix i j ↔ Edge adj_list i j)) ∧
      (∀ i j : Nat, i < V → j < V → (Edge adj_list i j ↔
        ((i : Int) + 1, (j : Int) + 1) ∈ pairs ∨ ((j : Int) + 1, (i : Int) + 1) ∈ pairs)) := by
  obtain ⟨m, hmrun, hsq, hcell⟩ := readMatrix_spec V pairs _ (square_replicate V) hin
  obtain ⟨a, harun, _, hedge⟩ := readList_spec V pairs (List.replicate V []) (by simp) hin
  have hc : ∀ i j : Nat, Cell m i j ↔
      ((i : Int) + 1, (j : Int) + 1) ∈ pairs ∨ ((j : Int) + 1, (i : Int) + 1) ∈ pairs := by
    intro i j
    rw [hcell i j]
    exact ⟨fun h => h.resolve_left (cell_replicate V i j), Or.inr⟩
  have he : ∀ i j : Nat, Edge a i j ↔
      ((i : Int) + 1, (j : Int) + 1) ∈ pairs ∨ ((j : Int) + 1, (i : Int) + 1) ∈ pairs := by
    intro i j
    rw [hedge i j]
    exact ⟨fun h => h.resolve_left (edge_replicate_nil V i j), Or.inr⟩
  refine ⟨m, a, by simp only [readGraph, hmrun, harun], hsq, ?_, ?_, fun i j _ _ => he i j⟩
  · intro i j _ _
    rw [hc i j, hc j i]
    exact Or.comm
  · intro i j _ _
    rw [hc i j, he i j]

theorem readGraph_matrix_agrees_witness :
    (∀ p ∈ [((1 : Int), (2 : Int)), (2, 3), (3, 4), (2, 2), (1, 2)], InRange 4 p) ∧
    ∃ adj_matrix adj_list,
      readGraph 4 [(1, 2), (2, 3), (3, 4), (2, 2), (1, 2)]
        [(1, 2), (2, 3), (3, 4), (2, 2), (1, 2)] = .ok (adj_matrix, adj_list) ∧
      Square 4 adj_matrix ∧
      (∀ i j, i < 4 → j < 4 → (Cell adj_matrix i j ↔ Cell adj_matrix j i)) ∧
      (∀ i j, i < 4 → j < 4 → (Cell adj_matrix i j ↔ Edge adj_list i j)) ∧
      (∀ i j : Nat, i < 4 → j < 4 → (Edge adj_list i j ↔
        ((i : Int) + 1, (j : Int) + 1) ∈ [((1 : Int), (2 : Int)), (2, 3), (3, 4), (2, 2), (1, 2)] ∨
        ((j : Int) + 1, (i : Int) + 1) ∈
          [((1 : Int), (2 : Int)), (2, 3), (3, 4), (2, 2), (1, 2)])) :=
  ⟨by decide, readGraph_matrix_agrees 4 [(1, 2), (2, 3), (3, 4), (2, 2), (1, 2)] (by decide)⟩

end IntroToGraphs
